/-
Verification of the chess-club tournament engine (models/tournament.py,
models/round.py, models/match.py, models/player.py and the round controller
controllers/tournament_rounds.py) against its natural-language specification.

Shallow embedding conventions:
* Python floats carrying scores/points are modelled as rationals (the program
  only ever adds halves, which are exact).
* Timestamps (`datetime.now().isoformat()`) are abstracted to a `now : Nat`
  parameter threaded into the operations that stamp them.
* Python objects are values.  A `Match` in Python holds references to the
  roster `Player` objects; point updates through those references are modelled
  as updates of the roster entry carrying the same `national_id` (the two
  coincide whenever match players are roster members and roster ids are
  distinct, which the pairing code guarantees).
* Python `raise` is modelled by an error flag / `Option`: an in-place mutating
  method that can raise returns the (possibly partially mutated) state
  together with a Bool that is `true` when an exception escaped.
* Python list indexing `xs[i]` accepts negative indices (counting from the
  end); `pyIdx` reproduces that rule.
-/

import Mathlib

/-- models/player.py: a player record.  `points` is the cumulative score. -/
structure PlayerS where
  last_name : String
  first_name : String
  birth_date : String
  national_id : String
  points : ℚ
deriving DecidableEq

/-- models/match.py: a match stores the pair of players and the pair of
scores, both defaulting to 0.0. -/
structure MatchS where
  p1 : PlayerS
  p2 : PlayerS
  scores : ℚ × ℚ
deriving DecidableEq

/-- models/round.py: a round has a name, its matches, a start timestamp set
at creation, and an end timestamp that stays `none` until `close`. -/
structure RoundS where
  name : String
  «matches» : List MatchS
  start_time : Option Nat
  end_time : Option Nat
deriving DecidableEq

/-- models/round.py Round.close: stamp `end_time` with the current time. -/
def RoundS.close (r : RoundS) (now : Nat) : RoundS :=
  { r with end_time := some now }

/-- models/tournament.py: the tournament state.  `history` is the pairing
history, a list of (id, id) tuples in the order the pairs were formed. -/
structure Tournoi where
  name : String
  place : String
  start_date : String
  end_date : String
  description : String
  total_rounds : Nat
  status : String
  current_round_index : Nat
  players : List PlayerS
  rounds : List RoundS
  history : List (String × String)
deriving DecidableEq

/-- Python list indexing: `xs[i]` for `i ≥ 0` is position `i` when
`i < len`, for `i < 0` it is position `len + i` when `-len ≤ i`; anything
else raises IndexError (`none`). -/
def pyIdx (i : Int) (len : Nat) : Option Nat :=
  if 0 ≤ i ∧ i < (len : Int) then some i.toNat
  else if -(len : Int) ≤ i ∧ i < 0 then some ((len : Int) + i).toNat
  else none

/-- Adding `d` points to the player object with id `pid`: in Python this is
`player.points += d` through the reference stored in the match; on a roster
with distinct ids it is exactly the update of the roster entry with that id. -/
def updatePoints (players : List PlayerS) (pid : String) (d : ℚ) : List PlayerS :=
  players.map (fun p => if p.national_id = pid then { p with points := p.points + d } else p)

/-- tournament.py _find_partner_index, inner test: the duo (p1, p2) was
already played in either tuple order. -/
def duoPlayed (hist : List (String × String)) (p1 p2 : PlayerS) : Bool :=
  hist.contains (p1.national_id, p2.national_id) || hist.contains (p2.national_id, p1.national_id)

/-- The enumerate loop of tournament.py _find_partner_index: index of the
first remaining player that has not yet faced `p1`, `none` if every one has. -/
def find_compatible_index (hist : List (String × String)) (p1 : PlayerS) :
    List PlayerS → Option Nat
  | [] => none
  | p2 :: rest =>
    if duoPlayed hist p1 p2 then (find_compatible_index hist p1 rest).map (· + 1)
    else some 0

/-- tournament.py Tournament._find_partner_index: first index k in
`remaining` whose player has not yet faced `p1` (in either order); 0 when
every remaining player already has. -/
def find_partner_index (hist : List (String × String)) (p1 : PlayerS)
    (remaining : List PlayerS) : Nat :=
  match find_compatible_index hist p1 remaining with
  | some k => k
  | none => 0

/-- tournament.py Tournament._build_pairs: repeatedly pop the first remaining
player, pop the partner at `_find_partner_index`, emit the pair and append it
to the history.  `none` models the IndexError raised by `remaining.pop(idx)`
on an empty list (odd rosters only; the caller checks evenness first). -/
def build_pairs (hist : List (String × String)) :
    List PlayerS → Option (List (PlayerS × PlayerS) × List (String × String))
  | [] => some ([], hist)
  | p1 :: rest =>
    let k := find_partner_index hist p1 rest
    match rest.get? k with
    | none => none
    | some p2 =>
      match build_pairs (hist ++ [(p1.national_id, p2.national_id)]) (rest.eraseIdx k) with
      | none => none
      | some (pairs, h2) => some ((p1, p2) :: pairs, h2)
termination_by l => l.length
decreasing_by
  simp only [List.length_cons]
  rw [List.length_eraseIdx]
  split <;> omega

/-- Python stable sort descending by a rational key (`list.sort(key=...,
reverse=True)` and `sorted(key=..., reverse=True)` are stable: elements with
equal keys keep their relative order).  Modelled as a stable insertion sort:
each element is inserted after every already-placed element with a key ≥ its
own. -/
def insertDesc (key : α → ℚ) (x : α) : List α → List α
  | [] => [x]
  | y :: ys => if key x ≤ key y then y :: insertDesc key x ys else x :: y :: ys

/-- The full stable descending sort (see `insertDesc`). -/
def sortDesc (key : α → ℚ) (l : List α) : List α :=
  l.foldl (fun acc x => insertDesc key x acc) []

/-- tournament.py Tournament._shuffle_equal_points_groups: split the list into
maximal contiguous runs of equal `points` and shuffle each run in place.  The
random `random.shuffle` is abstracted as the oracle `sh`; any actual outcome
satisfies `sh run ~ run`. -/
def shuffle_equal_points_groups (sh : List PlayerS → List PlayerS) :
    List PlayerS → List PlayerS
  | [] => []
  | p :: rest =>
    sh (p :: rest.takeWhile (fun q => q.points == p.points)) ++
      shuffle_equal_points_groups sh (rest.dropWhile (fun q => q.points == p.points))
termination_by l => l.length
decreasing_by
  simp only [List.length_cons]
  have hdw : ∀ (f : PlayerS → Bool) (l : List PlayerS),
      (l.dropWhile f).length ≤ l.length := by
    intro f l
    induction l with
    | nil => simp [List.dropWhile]
    | cons a as ih =>
      by_cases ha : f a = true
      · simp only [List.dropWhile, ha]
        exact Nat.le_succ_of_le ih
      · simp only [List.dropWhile, ha]
        simp
  exact Nat.lt_succ_of_le (hdw _ _)

/-- The maximal contiguous runs of equal `points` that
_shuffle_equal_points_groups iterates over (the slices from `i` to `j` of
the while loop). -/
def runsByPoints : List PlayerS → List (List PlayerS)
  | [] => []
  | p :: rest =>
    (p :: rest.takeWhile (fun q => q.points == p.points)) ::
      runsByPoints (rest.dropWhile (fun q => q.points == p.points))
termination_by l => l.length
decreasing_by
  simp only [List.length_cons]
  have hdw : ∀ (f : PlayerS → Bool) (l : List PlayerS),
      (l.dropWhile f).length ≤ l.length := by
    intro f l
    induction l with
    | nil => simp [List.dropWhile]
    | cons a as ih =>
      by_cases ha : f a = true
      · simp only [List.dropWhile, ha]
        exact Nat.le_succ_of_le ih
      · simp only [List.dropWhile, ha]
        simp
  exact Nat.lt_succ_of_le (hdw _ _)

/-- tournament.py Tournament._prepare_players_order: round 1 shuffles the
whole roster; later rounds sort by points descending then shuffle each group
of equal points. -/
def prepare_players_order (sh : List PlayerS → List PlayerS) (cri : Nat)
    (players : List PlayerS) : List PlayerS :=
  if cri = 0 then sh players
  else shuffle_equal_points_groups sh (sortDesc (fun p => p.points) players)

/-- tournament.py Tournament._pair_players: check evenness (ValueError on odd
rosters, modelled `none`), prepare the order, build the pairs.  Returns the
pairs, the extended history, and the reordered roster (the ordering pass
mutates `self.players` in place). -/
def pair_players (sh : List PlayerS → List PlayerS) (t : Tournoi) :
    Option (List (PlayerS × PlayerS) × List (String × String) × List PlayerS) :=
  if t.players.length % 2 ≠ 0 then none
  else
    let ordered := prepare_players_order sh t.current_round_index t.players
    match build_pairs t.history ordered with
    | none => none
    | some (pairs, h2) => some (pairs, h2, ordered)

/-- tournament.py Tournament.start_next_round: refuse when all rounds were
played (ValueError), else pair the players, append the new round (matches
created with default scores 0.0), bump `current_round_index` and set the
status to "en cours".  The Bool is `true` when an exception escaped, in which
case the returned state is unchanged (both raises happen before any
mutation). -/
def start_next_round (sh : List PlayerS → List PlayerS) (now : Nat) (t : Tournoi) :
    Tournoi × Bool :=
  if t.total_rounds ≤ t.current_round_index then (t, true)
  else
    match pair_players sh t with
    | none => (t, true)
    | some (pairs, h2, ordered) =>
      let ms := pairs.map (fun pr => MatchS.mk pr.1 pr.2 (0, 0))
      let rnd : RoundS :=
        { name := "Round " ++ toString (t.current_round_index + 1)
          «matches» := ms
          start_time := some now
          end_time := none }
      ({ t with
          players := ordered
          history := h2
          rounds := t.rounds ++ [rnd]
          current_round_index := t.current_round_index + 1
          status := "en cours" }, false)

/-- A result entry (num_round, num_match, score1, score2); the indices are
arbitrary Python ints. -/
structure Entry where
  r : Int
  m : Int
  s1 : ℚ
  s2 : ℚ
deriving DecidableEq

/-- One iteration of the update loop of tournament.py record_results: locate
`rounds[r].matches[m]` (IndexError modelled `none`), overwrite its scores and
add the scores to the two players' points. -/
def applyEntry (t : Tournoi) (e : Entry) : Option Tournoi :=
  match pyIdx e.r t.rounds.length with
  | none => none
  | some ri =>
    match t.rounds.get? ri with
    | none => none
    | some rnd =>
      match pyIdx e.m rnd.«matches».length with
      | none => none
      | some mi =>
        match rnd.«matches».get? mi with
        | none => none
        | some mt =>
          let rnd2 := { rnd with «matches» := rnd.«matches».set mi { mt with scores := (e.s1, e.s2) } }
          let players2 :=
            updatePoints (updatePoints t.players mt.p1.national_id e.s1) mt.p2.national_id e.s2
          some { t with rounds := t.rounds.set ri rnd2, players := players2 }

/-- The entry loop of record_results: entries are applied left to right; on
the first IndexError the loop aborts, keeping every mutation already made
(Python raises out of the for-loop). -/
def applyEntries (t : Tournoi) : List Entry → Tournoi × Bool
  | [] => (t, false)
  | e :: es =>
    match applyEntry t e with
    | some t2 => applyEntries t2 es
    | none => (t, true)

/-- tournament.py Tournament.record_results: apply all entries, then close
`rounds[current_round_index - 1]`, then set status "terminé" when
`current_round_index >= total_rounds`.  No status guard is performed.  The
Bool is `true` when an IndexError escaped (from an entry or from the closing
index), and the returned state keeps whatever mutations already happened. -/
def record_results (t : Tournoi) (results : List Entry) (now : Nat) : Tournoi × Bool :=
  match applyEntries t results with
  | (t1, true) => (t1, true)
  | (t1, false) =>
    match pyIdx ((t1.current_round_index : Int) - 1) t1.rounds.length with
    | none => (t1, true)
    | some ci =>
      match t1.rounds.get? ci with
      | none => (t1, true)
      | some rnd =>
        let t2 := { t1 with rounds := t1.rounds.set ci (rnd.close now) }
        if t2.total_rounds ≤ t2.current_round_index then
          ({ t2 with status := "terminé" }, false)
        else (t2, false)

/-- tournament.py Tournament.recalculate_points: reset every roster player's
points to 0 then replay every stored match score, round by round. -/
def recalculate_points (t : Tournoi) : Tournoi :=
  let players0 := t.players.map (fun p => { p with points := 0 })
  let players2 := t.rounds.foldl
    (fun ps rnd => rnd.«matches».foldl
      (fun ps2 m => updatePoints (updatePoints ps2 m.p1.national_id m.scores.1)
        m.p2.national_id m.scores.2)
      ps)
    players0
  { t with players := players2 }

/-- controllers/tournament_rounds.py step 6 guard: the tournament has rounds
and the last one has no end time yet (Python: `tournament.rounds and not
tournament.rounds[-1].end_time`). -/
def lastRoundOpen (t : Tournoi) : Bool :=
  match t.rounds.getLast? with
  | some r => r.end_time.isNone
  | none => false

/-- controllers/tournament_rounds.py step 7 condition: every round carries a
truthy end time (Python: `all(r.end_time for r in tournament.rounds)`). -/
def allRoundsClosed (t : Tournoi) : Bool :=
  t.rounds.all (fun r => r.end_time.isSome)

/-- Outcome of the controller-level "start next round" action: refusal
because the current round is still open, silent closing of an exhausted
tournament, a normally started round, or an escaped ValueError. -/
inductive StartOutcome where
  | roundOpen : StartOutcome
  | silentClose : StartOutcome
  | started : StartOutcome
  | raised : StartOutcome
deriving DecidableEq

/-- controllers/tournament_rounds.py TournamentRound.start_next_round, steps
6 to 8, for an already-chosen tournament: refuse while the last round is
open (warning, no mutation), silently mark an exhausted tournament finished,
otherwise call the model-level start_next_round. -/
def controller_start_next_round (sh : List PlayerS → List PlayerS) (now : Nat)
    (t : Tournoi) : StartOutcome × Tournoi :=
  if lastRoundOpen t then (StartOutcome.roundOpen, t)
  else if t.total_rounds ≤ t.current_round_index ∧ allRoundsClosed t = true then
    (StartOutcome.silentClose, { t with status := "terminé" })
  else
    match start_next_round sh now t with
    | (t2, false) => (StartOutcome.started, t2)
    | (t2, true) => (StartOutcome.raised, t2)

/-- views/console_view.py ConsoleView.show_leaderboard: the displayed order
is `sorted(tournament.players, key=lambda p: p.points, reverse=True)` (a
stable, non-mutating sort); the tournament itself is returned unchanged to
record that the operation is read-only. -/
def show_leaderboard (t : Tournoi) : List PlayerS × Tournoi :=
  (sortDesc (fun p => p.points) t.players, t)

/-- Python string comparison: code-point lexicographic order on the
characters. -/
def charListLt : List Char → List Char → Bool
  | [], [] => false
  | [], _ :: _ => true
  | _ :: _, [] => false
  | c :: cs, d :: ds =>
    if c < d then true else if d < c then false else charListLt cs ds

/-- Python `<` on strings. -/
def strLt (a b : String) : Bool :=
  charListLt a.data b.data

/-- Python tuple `<=` on the sort key `(p.last_name.lower(),
p.first_name.lower())` used by the alphabetical tie-break. -/
def alphaKeyLE (a b : PlayerS) : Bool :=
  strLt a.last_name.toLower b.last_name.toLower ||
    (a.last_name.toLower == b.last_name.toLower &&
      !strLt b.first_name.toLower a.first_name.toLower)

/-- Stable ascending insertion used to model
`sorted(top_players, key=lambda p: (p.last_name.lower(), p.first_name.lower()))`. -/
def insertAlpha (x : PlayerS) : List PlayerS → List PlayerS
  | [] => [x]
  | y :: ys => if alphaKeyLE y x then y :: insertAlpha x ys else x :: y :: ys

/-- The alphabetical sort of controllers/tournament_rounds.py step 5 of the
tie-break (stable sort by lowercased (last name, first name)). -/
def sortAlpha (l : List PlayerS) : List PlayerS :=
  l.foldl (fun acc x => insertAlpha x acc) []

/-- controllers/tournament_rounds.py: `max(p.points for p in players)`;
`none` models the ValueError on an empty roster. -/
def maxPoints : List PlayerS → Option ℚ
  | [] => none
  | p :: rest => some (rest.foldl (fun acc q => max acc q.points) p.points)

/-- The inner match loop of the tie-break in _finaliser_tournoi_si_termine:
scan the round's matches for the first one whose two players both belong to
the tied top group (membership of the Python player objects, rendered here
as membership of their ids); on that first hit the loop breaks, yielding
`some (some winner)` for a decisive result and `some none` for a draw;
`none` means the round has no such match. -/
def scanMatchesH2H (topIds : List String) : List MatchS → Option (Option PlayerS)
  | [] => none
  | m :: rest =>
    if topIds.contains m.p1.national_id && topIds.contains m.p2.national_id then
      some (if m.scores.2 < m.scores.1 then some m.p1
        else if m.scores.1 < m.scores.2 then some m.p2
        else none)
    else scanMatchesH2H topIds rest

/-- The outer round loop of the tie-break: rounds are scanned in order; the
loop stops at the first decisive head-to-head its inner loop reports, and a
drawn head-to-head merely ends that round's scan (winner stays None, the
outer loop continues with the next round). -/
def scanRoundsH2H (topIds : List String) : List RoundS → Option PlayerS
  | [] => none
  | rnd :: rest =>
    match scanMatchesH2H topIds rnd.«matches» with
    | some (some w) => some w
    | some none => scanRoundsH2H topIds rest
    | none => scanRoundsH2H topIds rest

/-- controllers/tournament_rounds.py _finaliser_tournoi_si_termine, steps 2
to 5: top score, tied top players, single leader or head-to-head scan or
alphabetical fallback.  `none` can only arise from an empty roster. -/
def finalWinner (t : Tournoi) : Option PlayerS :=
  match maxPoints t.players with
  | none => none
  | some top =>
    let tops := t.players.filter (fun p => p.points == top)
    if tops.length = 1 then tops.head?
    else
      match scanRoundsH2H (tops.map (fun p => p.national_id)) t.rounds with
      | some w => some w
      | none => (sortAlpha tops).head?

/-- Modelled from the spec's words, for comparison with the code: "search
all rounds/matches in chronological order for a match played directly
between two members of topPlayers; if found and not a draw, the higher
scorer of that match is the winner (first such decisive head-to-head found
wins)". -/
def specH2H (topIds : List String) (rounds : List RoundS) : Option PlayerS :=
  ((rounds.map (fun r => r.«matches»)).flatten).findSome? (fun m =>
    if topIds.contains m.p1.national_id && topIds.contains m.p2.national_id then
      if m.scores.2 < m.scores.1 then some m.p1
      else if m.scores.1 < m.scores.2 then some m.p2
      else none
    else none)

/-- Modelled from the spec's words: the winner according to §4.4 of the
spec, using the full chronological scan `specH2H` for tier 2. -/
def specWinner (t : Tournoi) : Option PlayerS :=
  match maxPoints t.players with
  | none => none
  | some top =>
    let tops := t.players.filter (fun p => p.points == top)
    if tops.length = 1 then tops.head?
    else
      match specH2H (tops.map (fun p => p.national_id)) t.rounds with
      | some w => some w
      | none => (sortAlpha tops).head?

/-- Per-round verdict of the truncated scan the code actually performs: the
first match of the round between two tied top players, if any, and its
decisive winner if it is not a draw. -/
def roundFirstH2H (topIds : List String) (rnd : RoundS) : Option PlayerS :=
  match rnd.«matches».find? (fun m =>
      topIds.contains m.p1.national_id && topIds.contains m.p2.national_id) with
  | none => none
  | some m =>
    if m.scores.2 < m.scores.1 then some m.p1
    else if m.scores.1 < m.scores.2 then some m.p2
    else none

/-- The scores the stored rounds assign to the player with id `pid`: the sum
over every match of every round of the side(s) of the match carrying that
id. -/
def matchContrib (pid : String) (m : MatchS) : ℚ :=
  (if m.p1.national_id = pid then m.scores.1 else 0) +
    (if m.p2.national_id = pid then m.scores.2 else 0)

/-- Total stored score for the player id `pid` across a match list. -/
def contribSum (pid : String) (ms : List MatchS) : ℚ :=
  ms.foldr (fun m acc => matchContrib pid m + acc) 0

/-- Total stored score for the player id `pid` across all rounds. -/
def scoreSumFor (pid : String) (rounds : List RoundS) : ℚ :=
  contribSum pid ((rounds.map (fun r => r.«matches»)).flatten)

/-- The points bookkeeping is consistent with the stored scores: every
roster player's `points` equals the replayed sum of the stored match scores
involving them — exactly what `recalculate_points` recomputes. -/
def pointsConsistent (t : Tournoi) : Prop :=
  ∀ p ∈ t.players, p.points = scoreSumFor p.national_id t.rounds

/-- The (round, match) position an entry resolves to under Python indexing,
`none` when lookup would raise IndexError. -/
def resolveTarget (t : Tournoi) (e : Entry) : Option (Nat × Nat) :=
  match pyIdx e.r t.rounds.length with
  | none => none
  | some ri =>
    match t.rounds.get? ri with
    | none => none
    | some rnd =>
      match pyIdx e.m rnd.«matches».length with
      | none => none
      | some mi => some (ri, mi)

/-- The match an entry resolves to, if any. -/
def targetMatch (t : Tournoi) (e : Entry) : Option MatchS :=
  match resolveTarget t e with
  | none => none
  | some (ri, mi) =>
    match t.rounds.get? ri with
    | none => none
    | some rnd => rnd.«matches».get? mi

/-- An entry whose round and match indices both resolve. -/
def entryValid (t : Tournoi) (e : Entry) : Bool :=
  (resolveTarget t e).isSome

/-- Entries that target pairwise distinct matches, each of which still holds
the default scores (0, 0): the "recorded at most once" discipline the normal
score-entry flow guarantees. -/
def entriesFresh (t : Tournoi) (entries : List Entry) : Prop :=
  entries.Pairwise (fun e1 e2 => resolveTarget t e1 ≠ resolveTarget t e2) ∧
    ∀ e ∈ entries, ∃ m, targetMatch t e = some m ∧ m.scores = (0, 0)

/-- The fields of a tournament that the entry-application loop of
record_results never touches: the status, the round counter, the round
total, the pairing history, the name, every round's end time and every
round's match count.  `recFrame t2 t` says they agree between `t2` and
`t`. -/
def recFrame (t2 t : Tournoi) : Prop :=
  t2.status = t.status ∧ t2.current_round_index = t.current_round_index ∧
  t2.total_rounds = t.total_rounds ∧ t2.history = t.history ∧
  t2.name = t.name ∧
  t2.rounds.map (fun r => r.end_time) = t.rounds.map (fun r => r.end_time) ∧
  t2.rounds.map (fun r => r.«matches».length) =
    t.rounds.map (fun r => r.«matches».length)

/-!  Concrete states used by witnesses and counterexamples.  -/

/-- A sample player (id A). -/
def pAnn : PlayerS :=
  { last_name := "ALPHA", first_name := "Ann", birth_date := "01/01/1990"
    national_id := "AB00001", points := 0 }

/-- A sample player (id B). -/
def pBen : PlayerS :=
  { last_name := "BRAVO", first_name := "Ben", birth_date := "02/02/1991"
    national_id := "AB00002", points := 0 }

/-- A sample player (id C). -/
def pCol : PlayerS :=
  { last_name := "CHARLIE", first_name := "Col", birth_date := "03/03/1992"
    national_id := "AB00003", points := 0 }

/-- A sample player (id D). -/
def pDug : PlayerS :=
  { last_name := "DELTA", first_name := "Dug", birth_date := "04/04/1993"
    national_id := "AB00004", points := 0 }

/-- Short-hand for a match with recorded scores. -/
def mkMatch (x y : PlayerS) (s1 s2 : ℚ) : MatchS :=
  { p1 := x, p2 := y, scores := (s1, s2) }

/-- A fresh two-player tournament, no round started yet. -/
def exFresh : Tournoi :=
  { name := "Open", place := "Club", start_date := "01/01/2025"
    end_date := "02/01/2025", description := "", total_rounds := 2
    status := "non démarré", current_round_index := 0
    players := [pAnn, pBen], rounds := [], history := [] }

/-- A finished four-player tournament in which the chronologically first
head-to-head between tied top players (Ann-Ben, round 1 match 1) is a draw
while a later match of the same round (Col-Dug) is decisive; every player
ends on 1 point. -/
def exTie : Tournoi :=
  { name := "Tie", place := "Club", start_date := "01/01/2025"
    end_date := "02/01/2025", description := "", total_rounds := 2
    status := "terminé", current_round_index := 2
    players := [{ pAnn with points := 1 }, { pBen with points := 1 },
      { pCol with points := 1 }, { pDug with points := 1 }]
    rounds :=
      [ { name := "Round 1"
          «matches» := [mkMatch { pAnn with points := 1 } { pBen with points := 1 } (1/2) (1/2),
            mkMatch { pCol with points := 1 } { pDug with points := 1 } 1 0]
          start_time := some 1, end_time := some 2 }
      , { name := "Round 2"
          «matches» := [mkMatch { pAnn with points := 1 } { pCol with points := 1 } (1/2) 0,
            mkMatch { pBen with points := 1 } { pDug with points := 1 } (1/2) 1]
          start_time := some 3, end_time := some 4 } ]
    history := [("AB00001", "AB00002"), ("AB00003", "AB00004"),
      ("AB00001", "AB00003"), ("AB00002", "AB00004")] }

/-- An in-progress two-player tournament with one open (unscored) round. -/
def exOpenRound : Tournoi :=
  { name := "Running", place := "Club", start_date := "01/01/2025"
    end_date := "02/01/2025", description := "", total_rounds := 2
    status := "en cours", current_round_index := 1
    players := [pAnn, pBen]
    rounds := [ { name := "Round 1", «matches» := [mkMatch pAnn pBen 0 0]
                  start_time := some 1, end_time := none } ]
    history := [("AB00001", "AB00002")] }

/-- A finished one-round, two-player tournament (all rounds played and
closed). -/
def exFinished : Tournoi :=
  { name := "Done", place := "Club", start_date := "01/01/2025"
    end_date := "02/01/2025", description := "", total_rounds := 1
    status := "terminé", current_round_index := 1
    players := [{ pAnn with points := 1 }, pBen]
    rounds := [ { name := "Round 1"
                  «matches» := [mkMatch { pAnn with points := 1 } pBen 1 0]
                  start_time := some 1, end_time := some 2 } ]
    history := [("AB00001", "AB00002")] }

/-- The state reached from `exFresh` by starting the first round with the
identity shuffle outcome at time 1. -/
def exStarted : Tournoi :=
  { exFresh with
    history := [("AB00001", "AB00002")]
    rounds := [ { name := "Round 1", «matches» := [mkMatch pAnn pBen 0 0]
                  start_time := some 1, end_time := none } ]
    current_round_index := 1
    status := "en cours" }

/-- The state reached from `exOpenRound` by recording the single match 1-0
at time 9. -/
def exRecorded : Tournoi :=
  { exOpenRound with
    players := [{ pAnn with points := 1 }, pBen]
    rounds := [ { name := "Round 1", «matches» := [mkMatch pAnn pBen 1 0]
                  start_time := some 1, end_time := some 9 } ] }

/-!  General helper lemmas about the embedded operations.  -/

theorem get?_cons_eraseIdx_perm {α : Type} (l : List α) (k : Nat) (x : α)
    (h : l.get? k = some x) : (x :: l.eraseIdx k).Perm l := by
  induction l generalizing k with
  | nil => simp at h
  | cons a as ih =>
    cases k with
    | zero =>
      simp only [List.get?_cons_zero, Option.some_inj] at h
      subst h
      simp [List.eraseIdx]
    | succ k =>
      simp only [List.get?_cons_succ] at h
      have hrec := ih k h
      have hswap : (x :: a :: as.eraseIdx k).Perm (a :: x :: as.eraseIdx k) :=
        List.Perm.swap a x _
      exact hswap.trans (hrec.cons a)

theorem find_compatible_index_lt (hist : List (String × String)) (p1 : PlayerS)
    (remaining : List PlayerS) (k : Nat)
    (h : find_compatible_index hist p1 remaining = some k) : k < remaining.length := by
  induction remaining generalizing k with
  | nil => simp [find_compatible_index] at h
  | cons p2 rest ih =>
    by_cases hd : duoPlayed hist p1 p2 = true
    · simp only [find_compatible_index, hd, if_true, Option.map_eq_some'] at h
      obtain ⟨k0, hk0, rfl⟩ := h
      have := ih k0 hk0
      simp only [List.length_cons]
      omega
    · simp only [find_compatible_index] at h
      rw [if_neg hd] at h
      have h0 : (0 : Nat) = k := Option.some.inj h
      subst h0
      simp

theorem find_partner_index_lt (hist : List (String × String)) (p1 : PlayerS)
    (remaining : List PlayerS) (hne : remaining ≠ []) :
    find_partner_index hist p1 remaining < remaining.length := by
  unfold find_partner_index
  cases hfc : find_compatible_index hist p1 remaining with
  | some k => exact find_compatible_index_lt hist p1 remaining k hfc
  | none =>
    cases remaining with
    | nil => exact absurd rfl hne
    | cons a as => simp

theorem build_pairs_cons (hist : List (String × String)) (p1 : PlayerS)
    (rest : List PlayerS) (p2 : PlayerS)
    (h : rest.get? (find_partner_index hist p1 rest) = some p2) :
    build_pairs hist (p1 :: rest) =
      match build_pairs (hist ++ [(p1.national_id, p2.national_id)])
          (rest.eraseIdx (find_partner_index hist p1 rest)) with
      | none => none
      | some (pairs, h2) => some ((p1, p2) :: pairs, h2) := by
  rw [build_pairs]
  simp only [h]

theorem build_pairs_even_aux (n : Nat) :
    ∀ (l : List PlayerS) (hist : List (String × String)), l.length = n →
      l.length % 2 = 0 →
      ∃ pairs h2, build_pairs hist l = some (pairs, h2) ∧
        pairs.length = l.length / 2 ∧
        ((pairs.map (fun pr => [pr.1, pr.2])).flatten).Perm l := by
  induction n using Nat.strong_induction_on with
  | _ n ih =>
    intro l hist hlen heven
    cases l with
    | nil =>
      refine ⟨[], hist, ?_, ?_, ?_⟩ <;> simp [build_pairs]
    | cons p1 rest =>
      have hne : rest ≠ [] := by
        intro hr
        subst hr
        simp at hlen heven
      have hk : find_partner_index hist p1 rest < rest.length :=
        find_partner_index_lt hist p1 rest hne
      have hget : rest.get? (find_partner_index hist p1 rest) =
          some (rest.get ⟨find_partner_index hist p1 rest, hk⟩) :=
        List.get?_eq_get hk
      have herase : (rest.eraseIdx (find_partner_index hist p1 rest)).length =
          rest.length - 1 := by
        rw [List.length_eraseIdx]
        simp [hk]
      have hlt : (rest.eraseIdx (find_partner_index hist p1 rest)).length < n := by
        simp only [List.length_cons] at hlen
        omega
      have heven2 : (rest.eraseIdx (find_partner_index hist p1 rest)).length % 2 = 0 := by
        simp only [List.length_cons] at heven
        omega
      obtain ⟨pairs, h2, heq, hl2, hperm⟩ :=
        ih _ hlt (rest.eraseIdx (find_partner_index hist p1 rest))
          (hist ++ [(p1.national_id,
            (rest.get ⟨find_partner_index hist p1 rest, hk⟩).national_id)]) rfl heven2
      refine ⟨(p1, rest.get ⟨find_partner_index hist p1 rest, hk⟩) :: pairs, h2, ?_, ?_, ?_⟩
      · rw [build_pairs_cons hist p1 rest _ hget, heq]
      · simp only [List.length_cons] at heven ⊢
        simp only [List.length_cons, hl2, herase]
        omega
      · simp only [List.map_cons, List.flatten_cons]
        have hstep : ((rest.get ⟨find_partner_index hist p1 rest, hk⟩) ::
            rest.eraseIdx (find_partner_index hist p1 rest)).Perm rest :=
          get?_cons_eraseIdx_perm rest _ _ hget
        exact ((hperm.cons _).cons p1).trans (hstep.cons p1)

theorem dropWhile_length_le {α : Type} (f : α → Bool) (l : List α) :
    (l.dropWhile f).length ≤ l.length := by
  induction l with
  | nil => simp [List.dropWhile]
  | cons a as ih =>
    by_cases ha : f a = true
    · simp only [List.dropWhile, ha]
      exact Nat.le_succ_of_le ih
    · simp only [List.dropWhile, ha]
      simp

theorem dropWhile_head_not {α : Type} (f : α → Bool) (l : List α) (x : α) (xs : List α)
    (h : l.dropWhile f = x :: xs) : f x = false := by
  induction l with
  | nil => simp [List.dropWhile] at h
  | cons a as ih =>
    by_cases ha : f a = true
    · simp only [List.dropWhile, ha] at h
      exact ih h
    · simp only [List.dropWhile, ha] at h
      injection h with h1 h2
      subst h1
      simpa using ha

theorem insertDesc_perm {α : Type} (key : α → ℚ) (x : α) (l : List α) :
    (insertDesc key x l).Perm (x :: l) := by
  induction l with
  | nil => exact List.Perm.refl _
  | cons y ys ih =>
    by_cases h : key x ≤ key y
    · simp only [insertDesc, if_pos h]
      exact (ih.cons y).trans (List.Perm.swap x y ys)
    · simp [insertDesc, if_neg h]

theorem foldl_insertDesc_perm {α : Type} (key : α → ℚ) :
    ∀ (l acc : List α),
      (l.foldl (fun acc x => insertDesc key x acc) acc).Perm (acc ++ l) := by
  intro l
  induction l with
  | nil => intro acc; simp
  | cons x xs ih =>
    intro acc
    have h1 := ih (insertDesc key x acc)
    have h2 : (insertDesc key x acc ++ xs).Perm (acc ++ x :: xs) := by
      have hins := (insertDesc_perm key x acc).append_right xs
      exact hins.trans List.perm_middle.symm
    simpa using h1.trans h2

theorem sortDesc_perm {α : Type} (key : α → ℚ) (l : List α) :
    (sortDesc key l).Perm l := by
  simpa [sortDesc] using foldl_insertDesc_perm key l []

theorem insertDesc_sorted {α : Type} (key : α → ℚ) (x : α) (l : List α)
    (h : List.Sorted (fun a b => key b ≤ key a) l) :
    List.Sorted (fun a b => key b ≤ key a) (insertDesc key x l) := by
  induction l with
  | nil => simp [insertDesc]
  | cons y ys ih =>
    rw [List.sorted_cons] at h
    by_cases hxy : key x ≤ key y
    · simp only [insertDesc, if_pos hxy]
      rw [List.sorted_cons]
      refine ⟨?_, ih h.2⟩
      intro b hb
      rcases List.mem_cons.mp ((insertDesc_perm key x ys).subset hb) with rfl | hbys
      · exact hxy
      · exact h.1 b hbys
    · simp only [insertDesc, if_neg hxy]
      rw [List.sorted_cons]
      refine ⟨?_, List.sorted_cons.mpr h⟩
      intro b hb
      rcases List.mem_cons.mp hb with rfl | hbys
      · exact le_of_not_le hxy
      · exact le_trans (h.1 b hbys) (le_of_not_le hxy)

theorem foldl_insertDesc_sorted {α : Type} (key : α → ℚ) :
    ∀ (l acc : List α), List.Sorted (fun a b => key b ≤ key a) acc →
      List.Sorted (fun a b => key b ≤ key a)
        (l.foldl (fun acc x => insertDesc key x acc) acc) := by
  intro l
  induction l with
  | nil => intro acc h; simpa using h
  | cons x xs ih =>
    intro acc h
    exact ih (insertDesc key x acc) (insertDesc_sorted key x acc h)

theorem sortDesc_sorted {α : Type} (key : α → ℚ) (l : List α) :
    List.Sorted (fun a b => key b ≤ key a) (sortDesc key l) :=
  foldl_insertDesc_sorted key l [] (by simp)

theorem runsByPoints_flatten : ∀ (n : Nat) (l : List PlayerS), l.length = n →
    (runsByPoints l).flatten = l := by
  intro n
  induction n using Nat.strong_induction_on with
  | _ n ih =>
    intro l hlen
    cases l with
    | nil => simp [runsByPoints]
    | cons p rest =>
      rw [runsByPoints]
      simp only [List.flatten_cons]
      have hlt : (rest.dropWhile (fun q => q.points == p.points)).length < n := by
        have := dropWhile_length_le (fun q => q.points == p.points) rest
        simp only [List.length_cons] at hlen
        omega
      rw [ih _ hlt _ rfl]
      simp [List.takeWhile_append_dropWhile]

theorem shuffle_eq_runs (sh : List PlayerS → List PlayerS) :
    ∀ (n : Nat) (l : List PlayerS), l.length = n →
    shuffle_equal_points_groups sh l = ((runsByPoints l).map sh).flatten := by
  intro n
  induction n using Nat.strong_induction_on with
  | _ n ih =>
    intro l hlen
    cases l with
    | nil => simp [shuffle_equal_points_groups, runsByPoints]
    | cons p rest =>
      rw [shuffle_equal_points_groups, runsByPoints]
      simp only [List.map_cons, List.flatten_cons]
      have hlt : (rest.dropWhile (fun q => q.points == p.points)).length < n := by
        have := dropWhile_length_le (fun q => q.points == p.points) rest
        simp only [List.length_cons] at hlen
        omega
      rw [ih _ hlt _ rfl]

theorem forall₂_perm_map_sh (sh : List PlayerS → List PlayerS)
    (hsh : ∀ l, (sh l).Perm l) :
    ∀ (rs : List (List PlayerS)), List.Forall₂ List.Perm (rs.map sh) rs := by
  intro rs
  induction rs with
  | nil => simp
  | cons r rest ih => exact List.Forall₂.cons (hsh r) ih

theorem shuffle_perm (sh : List PlayerS → List PlayerS) (hsh : ∀ l, (sh l).Perm l)
    (l : List PlayerS) : (shuffle_equal_points_groups sh l).Perm l := by
  rw [shuffle_eq_runs sh l.length l rfl]
  have h1 := List.Perm.flatten_congr (forall₂_perm_map_sh sh hsh (runsByPoints l))
  simpa [runsByPoints_flatten l.length l rfl] using h1

theorem run_points_eq (p : PlayerS) (rest : List PlayerS) (q : PlayerS)
    (hq : q ∈ p :: rest.takeWhile (fun r => r.points == p.points)) :
    q.points = p.points := by
  rcases List.mem_cons.mp hq with rfl | hmem
  · rfl
  · simpa using List.mem_takeWhile_imp hmem

theorem sorted_of_const_points (c : ℚ) : ∀ (m : List PlayerS),
    (∀ q ∈ m, q.points = c) →
    List.Sorted (fun a b : PlayerS => b.points ≤ a.points) m := by
  intro m
  induction m with
  | nil => intro _; simp
  | cons a as ih =>
    intro h
    rw [List.sorted_cons]
    refine ⟨?_, ih (fun q hq => h q (List.mem_cons.mpr (Or.inr hq)))⟩
    intro b hb
    rw [h a (List.mem_cons_self a as), h b (List.mem_cons.mpr (Or.inr hb))]

theorem shuffle_sorted (sh : List PlayerS → List PlayerS) (hsh : ∀ l, (sh l).Perm l) :
    ∀ (n : Nat) (l : List PlayerS), l.length = n →
      List.Sorted (fun a b : PlayerS => b.points ≤ a.points) l →
      List.Sorted (fun a b : PlayerS => b.points ≤ a.points)
        (shuffle_equal_points_groups sh l) := by
  intro n
  induction n using Nat.strong_induction_on with
  | _ n ih =>
    intro l hlen hsorted
    cases l with
    | nil => simp [shuffle_equal_points_groups]
    | cons p rest =>
      rw [shuffle_equal_points_groups]
      rw [List.sorted_cons] at hsorted
      have hlt : (rest.dropWhile (fun q => q.points == p.points)).length < n := by
        have := dropWhile_length_le (fun q => q.points == p.points) rest
        simp only [List.length_cons] at hlen
        omega
      have hsorted2 : List.Sorted (fun a b : PlayerS => b.points ≤ a.points)
          (rest.dropWhile (fun q => q.points == p.points)) :=
        List.Pairwise.sublist (List.dropWhile_sublist _) hsorted.2
      refine List.pairwise_append.mpr ⟨?_, ih _ hlt _ rfl hsorted2, ?_⟩
      · apply sorted_of_const_points p.points
        intro q hq
        exact run_points_eq p rest q ((hsh _).subset hq)
      · intro x hx y hy
        have hxp : x.points = p.points := run_points_eq p rest x ((hsh _).subset hx)
        have hymem : y ∈ rest.dropWhile (fun q => q.points == p.points) :=
          (shuffle_perm sh hsh _).subset hy
        have hyrest : y ∈ rest := (List.dropWhile_sublist _).subset hymem
        rw [hxp]
        exact hsorted.1 y hyrest

theorem prepare_players_order_perm (sh : List PlayerS → List PlayerS)
    (hsh : ∀ l, (sh l).Perm l) (cri : Nat) (players : List PlayerS) :
    (prepare_players_order sh cri players).Perm players := by
  unfold prepare_players_order
  by_cases h : cri = 0
  · simpa [h] using hsh players
  · rw [if_neg h]
    exact (shuffle_perm sh hsh _).trans (sortDesc_perm _ players)

/-- C1: for every tournament with a non-empty, even-sized roster of players
with distinct ids, and for every outcome of the random shuffles (any
permutation oracle `sh`), the pairing step succeeds and returns exactly
n/2 pairs whose players, taken together, are a permutation of the roster:
every roster player is in exactly one pair, none repeated, none omitted. -/
theorem pair_players_partitions (sh : List PlayerS → List PlayerS)
    (hsh : ∀ l, (sh l).Perm l) (t : Tournoi)
    (hne : t.players ≠ []) (heven : t.players.length % 2 = 0)
    (hids : (t.players.map (fun p => p.national_id)).Nodup) :
    ∃ pairs h2 ordered, pair_players sh t = some (pairs, h2, ordered) ∧
      pairs.length = t.players.length / 2 ∧
      ((pairs.map (fun pr => [pr.1, pr.2])).flatten).Perm t.players := by
  have hperm := prepare_players_order_perm sh hsh t.current_round_index t.players
  have hlen : (prepare_players_order sh t.current_round_index t.players).length =
      t.players.length := hperm.length_eq
  obtain ⟨pairs, h2, heq, hl, hp⟩ :=
    build_pairs_even_aux (prepare_players_order sh t.current_round_index t.players).length
      (prepare_players_order sh t.current_round_index t.players) t.history rfl
      (by rw [hlen]; exact heven)
  refine ⟨pairs, h2, prepare_players_order sh t.current_round_index t.players, ?_, ?_, ?_⟩
  · unfold pair_players
    rw [if_neg (by omega)]
    simp only [heq]
  · rw [hl, hlen]
  · exact hp.trans hperm

/-- C1 witness: the theorem applied to a concrete fresh two-player
tournament with the identity shuffle outcome. -/
theorem pair_players_partitions_witness :
    ∃ pairs h2 ordered, pair_players (fun l => l) exFresh = some (pairs, h2, ordered) ∧
      pairs.length = exFresh.players.length / 2 ∧
      ((pairs.map (fun pr => [pr.1, pr.2])).flatten).Perm exFresh.players :=
  pair_players_partitions (fun l => l) (fun l => List.Perm.refl l) exFresh
    (by decide) (by decide) (by decide)

/-- C8: after round 1 (current_round_index > 0), for every outcome of the
random tie-break shuffles, the ordering pass returns a permutation of the
roster, sorted by points in non-increasing order, and equal to the
concatenation, in order, of the shuffled maximal runs of equal points of the
points-sorted roster — each run permuted within itself, the order across
runs preserved. -/
theorem prepare_order_shuffles_runs (sh : List PlayerS → List PlayerS)
    (hsh : ∀ l, (sh l).Perm l) (cri : Nat) (players : List PlayerS)
    (hcri : 0 < cri) :
    (prepare_players_order sh cri players).Perm players ∧
    List.Sorted (fun a b : PlayerS => b.points ≤ a.points)
      (prepare_players_order sh cri players) ∧
    prepare_players_order sh cri players =
      ((runsByPoints (sortDesc (fun p => p.points) players)).map sh).flatten ∧
    List.Forall₂ List.Perm
      ((runsByPoints (sortDesc (fun p => p.points) players)).map sh)
      (runsByPoints (sortDesc (fun p => p.points) players)) := by
  have hcne : ¬ cri = 0 := by omega
  refine ⟨prepare_players_order_perm sh hsh cri players, ?_, ?_,
    forall₂_perm_map_sh sh hsh _⟩
  · unfold prepare_players_order
    rw [if_neg hcne]
    exact shuffle_sorted sh hsh _ _ rfl (sortDesc_sorted _ _)
  · unfold prepare_players_order
    rw [if_neg hcne]
    exact shuffle_eq_runs sh _ _ rfl

/-- C8 witness: the theorem applied to a concrete second-round state with
the identity shuffle outcome. -/
theorem prepare_order_shuffles_runs_witness :
    (prepare_players_order (fun l => l) 1 [pAnn, pBen]).Perm [pAnn, pBen] ∧
    List.Sorted (fun a b : PlayerS => b.points ≤ a.points)
      (prepare_players_order (fun l => l) 1 [pAnn, pBen]) ∧
    prepare_players_order (fun l => l) 1 [pAnn, pBen] =
      ((runsByPoints (sortDesc (fun p => p.points) [pAnn, pBen])).map (fun l => l)).flatten ∧
    List.Forall₂ List.Perm
      ((runsByPoints (sortDesc (fun p => p.points) [pAnn, pBen])).map (fun l => l))
      (runsByPoints (sortDesc (fun p => p.points) [pAnn, pBen])) :=
  prepare_order_shuffles_runs (fun l => l) (fun l => List.Perm.refl l) 1
    [pAnn, pBen] (by decide)

theorem filter_eq_nil_of_lt {α : Type} (key : α → ℚ) (q : ℚ) (l : List α)
    (h : ∀ a ∈ l, key a < q) : l.filter (fun a => key a == q) = [] := by
  induction l with
  | nil => rfl
  | cons y ys ih =>
    have hy : ¬ (key y == q) = true := by
      simp only [beq_iff_eq]
      exact ne_of_lt (h y (List.mem_cons_self y ys))
    simp only [List.filter_cons, if_neg hy]
    exact ih (fun a ha => h a (List.mem_cons.mpr (Or.inr ha)))

theorem insertDesc_filter {α : Type} (key : α → ℚ) (q : ℚ) (x : α) :
    ∀ (l : List α), List.Sorted (fun a b => key b ≤ key a) l →
    (insertDesc key x l).filter (fun a => key a == q) =
      if key x == q then (l.filter (fun a => key a == q)) ++ [x]
      else l.filter (fun a => key a == q) := by
  intro l
  induction l with
  | nil =>
    intro _
    by_cases hx : (key x == q) = true <;>
      simp [insertDesc, List.filter_cons, hx]
  | cons y ys ih =>
    intro hsorted
    rw [List.sorted_cons] at hsorted
    by_cases hxy : key x ≤ key y
    · simp only [insertDesc, if_pos hxy, List.filter_cons]
      rw [ih hsorted.2]
      by_cases hy : (key y == q) = true <;>
        by_cases hx : (key x == q) = true <;>
          simp [hy, hx]
    · simp only [insertDesc, if_neg hxy]
      have hylt : key y < key x := lt_of_not_le hxy
      by_cases hx : (key x == q) = true
      · have hq : key x = q := by simpa using hx
        have hnil : (y :: ys).filter (fun a => key a == q) = [] := by
          apply filter_eq_nil_of_lt
          intro a ha
          rcases List.mem_cons.mp ha with rfl | hays
          · rw [← hq]; exact hylt
          · rw [← hq]; exact lt_of_le_of_lt (hsorted.1 a hays) hylt
        rw [List.filter_cons, hnil, if_pos hx, if_pos hx]
        simp
      · rw [List.filter_cons, if_neg hx, if_neg hx]

theorem foldl_insertDesc_filter {α : Type} (key : α → ℚ) (q : ℚ) :
    ∀ (l acc : List α), List.Sorted (fun a b => key b ≤ key a) acc →
    ((l.foldl (fun acc x => insertDesc key x acc) acc).filter (fun a => key a == q)) =
      acc.filter (fun a => key a == q) ++ l.filter (fun a => key a == q) := by
  intro l
  induction l with
  | nil => intro acc _; simp
  | cons x xs ih =>
    intro acc hacc
    simp only [List.foldl_cons]
    rw [ih (insertDesc key x acc) (insertDesc_sorted key x acc hacc)]
    rw [insertDesc_filter key q x acc hacc]
    simp only [List.filter_cons]
    by_cases hx : (key x == q) = true <;> simp [hx]

theorem sortDesc_filter {α : Type} (key : α → ℚ) (q : ℚ) (l : List α) :
    (sortDesc key l).filter (fun a => key a == q) = l.filter (fun a => key a == q) := by
  have := foldl_insertDesc_filter key q l [] (by simp)
  simpa [sortDesc] using this

/-- C9: the leaderboard lists the roster players in points-descending
order, with players of equal points kept in their roster (insertion) order
— the filter of either list to any fixed points value is the same list —
and the operation is read-only: the tournament comes back unchanged and the
displayed list is a permutation of the roster, which itself is not
reordered. -/
theorem show_leaderboard_spec (t : Tournoi) :
    ((show_leaderboard t).1).Perm t.players ∧
    List.Sorted (fun a b : PlayerS => b.points ≤ a.points) (show_leaderboard t).1 ∧
    (∀ q : ℚ, (show_leaderboard t).1.filter (fun p => p.points == q) =
      t.players.filter (fun p => p.points == q)) ∧
    (show_leaderboard t).2 = t := by
  refine ⟨sortDesc_perm _ _, sortDesc_sorted _ _, ?_, rfl⟩
  intro q
  exact sortDesc_filter (fun p => p.points) q t.players

theorem find_compatible_index_some (hist : List (String × String)) (p1 : PlayerS) :
    ∀ (rem : List PlayerS) (k : Nat),
    find_compatible_index hist p1 rem = some k →
    ∃ p2, rem.get? k = some p2 ∧ duoPlayed hist p1 p2 = false ∧
      ∀ j, j < k → ∀ q, rem.get? j = some q → duoPlayed hist p1 q = true := by
  intro rem
  induction rem with
  | nil => intro k h; simp [find_compatible_index] at h
  | cons a as ih =>
    intro k h
    by_cases hd : duoPlayed hist p1 a = true
    · simp only [find_compatible_index, if_pos hd, Option.map_eq_some'] at h
      obtain ⟨k0, hk0, rfl⟩ := h
      obtain ⟨p2, hget, hcomp, hbefore⟩ := ih k0 hk0
      refine ⟨p2, by simpa using hget, hcomp, ?_⟩
      intro j hj q hq
      cases j with
      | zero =>
        simp only [List.get?_cons_zero, Option.some_inj] at hq
        rw [← hq]
        exact hd
      | succ j0 =>
        simp only [List.get?_cons_succ] at hq
        exact hbefore j0 (by omega) q hq
    · simp only [find_compatible_index, if_neg hd] at h
      have h0 : (0 : Nat) = k := Option.some.inj h
      subst h0
      refine ⟨a, by simp, by simpa using hd, ?_⟩
      intro j hj
      omega

theorem find_compatible_index_none (hist : List (String × String)) (p1 : PlayerS) :
    ∀ (rem : List PlayerS),
    find_compatible_index hist p1 rem = none →
    ∀ p2 ∈ rem, duoPlayed hist p1 p2 = true := by
  intro rem
  induction rem with
  | nil => intro _ p2 h; simp at h
  | cons a as ih =>
    intro h p2 hp2
    by_cases hd : duoPlayed hist p1 a = true
    · simp only [find_compatible_index, if_pos hd, Option.map_eq_none'] at h
      rcases List.mem_cons.mp hp2 with rfl | hmem
      · exact hd
      · exact ih h p2 hmem
    · simp [find_compatible_index, if_neg hd] at h

theorem build_pairs_hist_grows : ∀ (n : Nat) (l : List PlayerS)
    (hist : List (String × String)) (pairs : List (PlayerS × PlayerS))
    (h2 : List (String × String)), l.length = n →
    build_pairs hist l = some (pairs, h2) → ∃ suf, h2 = hist ++ suf := by
  intro n
  induction n using Nat.strong_induction_on with
  | _ n ih =>
    intro l hist pairs h2 hlen hb
    cases l with
    | nil =>
      rw [build_pairs] at hb
      simp only [Option.some_inj, Prod.mk.injEq] at hb
      refine ⟨[], ?_⟩
      rw [← hb.2]
      simp
    | cons p1 rest =>
      rw [build_pairs] at hb
      cases hget : rest.get? (find_partner_index hist p1 rest) with
      | none =>
        simp only [hget] at hb
        exact Option.noConfusion hb
      | some p2 =>
        simp only [hget] at hb
        cases hrec : build_pairs (hist ++ [(p1.national_id, p2.national_id)])
            (rest.eraseIdx (find_partner_index hist p1 rest)) with
        | none =>
          simp only [hrec] at hb
          exact Option.noConfusion hb
        | some pr =>
          obtain ⟨pairs0, h20⟩ := pr
          simp only [hrec, Option.some_inj, Prod.mk.injEq] at hb
          have hk : find_partner_index hist p1 rest < rest.length := by
            obtain ⟨hk, -⟩ := List.get?_eq_some.mp hget
            exact hk
          have hlt : (rest.eraseIdx (find_partner_index hist p1 rest)).length < n := by
            rw [List.length_eraseIdx, if_pos hk]
            simp only [List.length_cons] at hlen
            omega
          obtain ⟨suf0, hsuf⟩ := ih _ hlt _ _ _ _ rfl hrec
          refine ⟨(p1.national_id, p2.national_id) :: suf0, ?_⟩
          rw [← hb.2, hsuf]
          simp

/-- C7: at each pairing step the partner chosen for the first remaining
player p1 is the earliest remaining player p2 whose unordered id pair with
p1 (checked in both tuple orders) is absent from the history; when every
remaining player has already faced p1 the index falls back to 0 (the first
remaining player); and the emitted pair (p1, p2) is appended to the pairing
history carried into the rest of the construction. -/
theorem partner_choice_spec (hist : List (String × String)) (p1 : PlayerS)
    (rest : List PlayerS) :
    ((∃ p2 ∈ rest, duoPlayed hist p1 p2 = false) →
      ∃ p2, rest.get? (find_partner_index hist p1 rest) = some p2 ∧
        duoPlayed hist p1 p2 = false ∧
        ∀ j, j < find_partner_index hist p1 rest → ∀ q, rest.get? j = some q →
          duoPlayed hist p1 q = true) ∧
    ((∀ p2 ∈ rest, duoPlayed hist p1 p2 = true) →
      find_partner_index hist p1 rest = 0) ∧
    (∀ pairs h2, build_pairs hist (p1 :: rest) = some (pairs, h2) →
      ∃ p2, rest.get? (find_partner_index hist p1 rest) = some p2 ∧
        pairs.head? = some (p1, p2) ∧
        ∃ suf, h2 = (hist ++ [(p1.national_id, p2.national_id)]) ++ suf) := by
  refine ⟨?_, ?_, ?_⟩
  · rintro ⟨p2, hp2mem, hp2c⟩
    cases hfc : find_compatible_index hist p1 rest with
    | none =>
      have hcontra := find_compatible_index_none hist p1 rest hfc p2 hp2mem
      rw [hp2c] at hcontra
      exact Bool.noConfusion hcontra
    | some k =>
      have hspec := find_compatible_index_some hist p1 rest k hfc
      have hfp : find_partner_index hist p1 rest = k := by
        unfold find_partner_index
        rw [hfc]
      rw [hfp]
      exact hspec
  · intro hall
    cases hfc : find_compatible_index hist p1 rest with
    | none =>
      unfold find_partner_index
      rw [hfc]
    | some k =>
      obtain ⟨p2, hget, hcomp, -⟩ := find_compatible_index_some hist p1 rest k hfc
      have hmem : p2 ∈ rest := by
        obtain ⟨hk, hgg⟩ := List.get?_eq_some.mp hget
        rw [← hgg]
        exact List.get_mem rest k hk
      have hcontra := hall p2 hmem
      rw [hcomp] at hcontra
      exact Bool.noConfusion hcontra
  · intro pairs h2 hb
    rw [build_pairs] at hb
    cases hget : rest.get? (find_partner_index hist p1 rest) with
    | none =>
      simp only [hget] at hb
      exact Option.noConfusion hb
    | some p2 =>
      simp only [hget] at hb
      cases hrec : build_pairs (hist ++ [(p1.national_id, p2.national_id)])
          (rest.eraseIdx (find_partner_index hist p1 rest)) with
      | none =>
        simp only [hrec] at hb
        exact Option.noConfusion hb
      | some pr =>
        obtain ⟨pairs0, h20⟩ := pr
        simp only [hrec, Option.some_inj, Prod.mk.injEq] at hb
        obtain ⟨suf, hsuf⟩ := build_pairs_hist_grows
          (rest.eraseIdx (find_partner_index hist p1 rest)).length _ _ _ _ rfl hrec
        refine ⟨p2, rfl, ?_, suf, ?_⟩
        · rw [← hb.1]
          rfl
        · rw [← hb.2]
          exact hsuf

/-- C7 witness: the theorem applied to concrete inputs — an empty history
(first conjunct and the build step) and a history already containing the
only available duo (fallback conjunct). -/
theorem partner_choice_spec_witness :
    (∃ p2, [pBen].get? (find_partner_index [] pAnn [pBen]) = some p2 ∧
      duoPlayed [] pAnn p2 = false ∧
      ∀ j, j < find_partner_index [] pAnn [pBen] → ∀ q, [pBen].get? j = some q →
        duoPlayed [] pAnn q = true) ∧
    find_partner_index [("AB00001", "AB00002")] pAnn [pBen] = 0 ∧
    (∃ p2, [pBen].get? (find_partner_index [] pAnn [pBen]) = some p2 ∧
      ([(pAnn, pBen)] : List (PlayerS × PlayerS)).head? = some (pAnn, p2) ∧
      ∃ suf, [("AB00001", "AB00002")] =
        ([] ++ [(pAnn.national_id, pBen.national_id)]) ++ suf) := by
  refine ⟨(partner_choice_spec [] pAnn [pBen]).1 ⟨pBen, by decide, by decide⟩,
    (partner_choice_spec [("AB00001", "AB00002")] pAnn [pBen]).2.1 (by decide), ?_⟩
  have hb : build_pairs [] [pAnn, pBen] =
      some ([(pAnn, pBen)], [("AB00001", "AB00002")]) := by
    rw [build_pairs]
    norm_num [find_partner_index, find_compatible_index, duoPlayed, pAnn, pBen]
    rw [build_pairs]
  obtain ⟨p2, hget, hhead, suf, hsuf⟩ :=
    (partner_choice_spec [] pAnn [pBen]).2.2 [(pAnn, pBen)] [("AB00001", "AB00002")] hb
  have hp2 : p2 = pBen := by
    have : ([pBen].get? (find_partner_index [] pAnn [pBen])).isSome := by rw [hget]; rfl
    cases hfp : find_partner_index [] pAnn [pBen] with
    | zero =>
      rw [hfp] at hget
      exact (Option.some.inj hget).symm
    | succ m =>
      rw [hfp] at hget
      simp at hget
  refine ⟨p2, hget, hhead, suf, ?_⟩
  rw [← hp2]
  exact hsuf

theorem scanMatchesH2H_eq (topIds : List String) : ∀ (ms : List MatchS),
    scanMatchesH2H topIds ms =
      (ms.find? (fun m => topIds.contains m.p1.national_id &&
          topIds.contains m.p2.national_id)).map
        (fun m => if m.scores.2 < m.scores.1 then some m.p1
          else if m.scores.1 < m.scores.2 then some m.p2 else none) := by
  intro ms
  induction ms with
  | nil => rfl
  | cons m rest ih =>
    by_cases hc : (topIds.contains m.p1.national_id &&
        topIds.contains m.p2.national_id) = true
    · rw [scanMatchesH2H, if_pos hc]
      have hf : List.find? (fun m => topIds.contains m.p1.national_id &&
          topIds.contains m.p2.national_id) (m :: rest) = some m := by
        simp only [List.find?_cons, hc]
      rw [hf]
      rfl
    · rw [scanMatchesH2H, if_neg hc]
      have hcf : (topIds.contains m.p1.national_id &&
          topIds.contains m.p2.national_id) = false := by
        simpa using hc
      have hf : List.find? (fun m => topIds.contains m.p1.national_id &&
          topIds.contains m.p2.national_id) (m :: rest) =
          List.find? (fun m => topIds.contains m.p1.national_id &&
            topIds.contains m.p2.national_id) rest := by
        simp only [List.find?_cons, hcf]
      rw [hf]
      exact ih

theorem scanRoundsH2H_eq (topIds : List String) : ∀ (rounds : List RoundS),
    scanRoundsH2H topIds rounds =
      rounds.findSome? (fun rnd => roundFirstH2H topIds rnd) := by
  intro rounds
  induction rounds with
  | nil => rfl
  | cons rnd rest ih =>
    rw [scanRoundsH2H, List.findSome?_cons, scanMatchesH2H_eq]
    cases hf : rnd.«matches».find? (fun m => topIds.contains m.p1.national_id &&
        topIds.contains m.p2.national_id) with
    | none =>
      have hr : roundFirstH2H topIds rnd = none := by
        unfold roundFirstH2H
        rw [hf]
      rw [hr]
      simp only [Option.map_none']
      exact ih
    | some m =>
      have hr : roundFirstH2H topIds rnd =
          (if m.scores.2 < m.scores.1 then some m.p1
            else if m.scores.1 < m.scores.2 then some m.p2 else none) := by
        unfold roundFirstH2H
        rw [hf]
      rw [hr]
      simp only [Option.map_some']
      by_cases h1 : m.scores.2 < m.scores.1
      · rw [if_pos h1]
      · rw [if_neg h1]
        by_cases h2 : m.scores.1 < m.scores.2
        · rw [if_pos h2]
        · rw [if_neg h2]
          exact ih

/-- C2 counterexample: on the concrete finished tournament `exTie` (four
players all on 1 point; the chronologically first head-to-head between tied
top players is the round-1 draw Ann-Ben, the chronologically first decisive
one is Col-Dug later in round 1) the code declares Ann the winner — its
round scan stops at the first head-to-head of each round even when drawn,
skipping Col-Dug — while the claimed full chronological scan (specWinner,
modelled from the spec) declares Col. -/
theorem finalWinner_not_first_decisive :
    finalWinner exTie = some { pAnn with points := 1 } ∧
    specWinner exTie = some { pCol with points := 1 } ∧
    ({ pAnn with points := 1 } : PlayerS) ≠ { pCol with points := 1 } := by
  refine ⟨?_, ?_, by decide⟩
  · norm_num [finalWinner, maxPoints, scanRoundsH2H, scanMatchesH2H, exTie,
      pAnn, pBen, pCol, pDug, mkMatch]
  · norm_num [specWinner, maxPoints, specH2H, List.findSome?, exTie,
      pAnn, pBen, pCol, pDug, mkMatch]

/-- C2 amended: when at least two players share the top score, the declared
winner is the higher scorer of the first decisive head-to-head found by a
scan that, within each round taken in chronological order, looks only at
the first match between two tied top players (a drawn head-to-head ends
that round's scan and the search moves to the next round); the alphabetical
(lastName, firstName) tie-break is used exactly when this truncated scan
finds no decisive head-to-head. -/
theorem finalWinner_truncated_scan (t : Tournoi) (top : ℚ)
    (htop : maxPoints t.players = some top)
    (hmulti : (t.players.filter (fun p => p.points == top)).length ≠ 1) :
    finalWinner t =
      match t.rounds.findSome? (fun rnd =>
          roundFirstH2H ((t.players.filter (fun p => p.points == top)).map
            (fun p => p.national_id)) rnd) with
      | some w => some w
      | none => (sortAlpha (t.players.filter (fun p => p.points == top))).head? := by
  unfold finalWinner
  rw [htop]
  simp only [if_neg hmulti]
  rw [scanRoundsH2H_eq]

/-- C2 amended witness: the amended characterization applied to the
concrete tournament `exTie`. -/
theorem finalWinner_truncated_scan_witness :
    finalWinner exTie =
      match exTie.rounds.findSome? (fun rnd =>
          roundFirstH2H ((exTie.players.filter (fun p => p.points == (1 : ℚ))).map
            (fun p => p.national_id)) rnd) with
      | some w => some w
      | none => (sortAlpha (exTie.players.filter (fun p => p.points == (1 : ℚ)))).head? :=
  finalWinner_truncated_scan exTie 1
    (by norm_num [maxPoints, exTie, pAnn, pBen, pCol, pDug])
    (by norm_num [exTie, pAnn, pBen, pCol, pDug])

theorem pyIdx_nonneg (i : Int) (len : Nat) (h1 : 0 ≤ i) (h2 : i < (len : Int)) :
    pyIdx i len = some i.toNat := by
  unfold pyIdx
  rw [if_pos ⟨h1, h2⟩]

theorem pyIdx_none (i : Int) (len : Nat) (h : (len : Int) ≤ i) :
    pyIdx i len = none := by
  unfold pyIdx
  rw [if_neg (by omega), if_neg (by omega)]

theorem map_matches_set (l : List RoundS) (i : Nat) (r r2 : RoundS)
    (hget : l.get? i = some r) (hm : r2.«matches» = r.«matches») :
    (l.set i r2).map (fun x => x.«matches») = l.map (fun x => x.«matches») := by
  induction l generalizing i with
  | nil => simp at hget
  | cons a as ih =>
    cases i with
    | zero =>
      simp only [List.get?_cons_zero, Option.some_inj] at hget
      subst hget
      simp [List.set, hm]
    | succ j =>
      simp only [List.get?_cons_succ] at hget
      simp [List.set, ih j hget]

/-- C10: on a tournament with at least one started round (and the round
count consistent), record_results with an empty entry list changes no match
scores and no player points, re-stamps end_time on the round at index
current_round_index - 1, and sets the status to "terminé" exactly when
current_round_index has reached total_rounds; the name, roster, history,
current_round_index and the number of rounds are unchanged. -/
theorem record_results_empty_closes_round (t : Tournoi) (now : Nat)
    (hst : t.status = "en cours") (hcri1 : 1 ≤ t.current_round_index)
    (hcri2 : t.current_round_index ≤ t.rounds.length) :
    ∃ r, t.rounds.get? (t.current_round_index - 1) = some r ∧
      record_results t [] now =
        ({ t with
            rounds := t.rounds.set (t.current_round_index - 1)
              { r with end_time := some now }
            status := if t.total_rounds ≤ t.current_round_index then "terminé"
              else t.status }, false) ∧
      ((record_results t [] now).1.status = "terminé" ↔
        t.total_rounds ≤ t.current_round_index) ∧
      (record_results t [] now).1.players = t.players ∧
      (record_results t [] now).1.name = t.name ∧
      (record_results t [] now).1.history = t.history ∧
      (record_results t [] now).1.current_round_index = t.current_round_index ∧
      (record_results t [] now).1.rounds.length = t.rounds.length ∧
      (record_results t [] now).1.rounds.map (fun r => r.«matches») =
        t.rounds.map (fun r => r.«matches») := by
  have hlt : t.current_round_index - 1 < t.rounds.length := by omega
  have hget : t.rounds.get? (t.current_round_index - 1) =
      some (t.rounds.get ⟨t.current_round_index - 1, hlt⟩) := List.get?_eq_get hlt
  have hpy : pyIdx ((t.current_round_index : Int) - 1) t.rounds.length =
      some (t.current_round_index - 1) := by
    rw [pyIdx_nonneg _ _ (by omega) (by omega)]
    congr 1
    omega
  have heq : record_results t [] now =
      ({ t with
          rounds := t.rounds.set (t.current_round_index - 1)
            { t.rounds.get ⟨t.current_round_index - 1, hlt⟩ with end_time := some now }
          status := if t.total_rounds ≤ t.current_round_index then "terminé"
            else t.status }, false) := by
    unfold record_results
    have h0 : applyEntries t [] = (t, false) := rfl
    rw [h0]
    simp only [hpy, hget]
    unfold RoundS.close
    by_cases hfin : t.total_rounds ≤ t.current_round_index
    · rw [if_pos hfin, if_pos hfin]
    · rw [if_neg hfin, if_neg hfin]
  refine ⟨t.rounds.get ⟨t.current_round_index - 1, hlt⟩, hget, heq, ?_, ?_, ?_, ?_, ?_, ?_, ?_⟩
  · rw [heq]
    by_cases hfin : t.total_rounds ≤ t.current_round_index
    · simp [if_pos hfin, hfin]
    · simp only [if_neg hfin]
      constructor
      · intro hc
        rw [hst] at hc
        exact absurd hc (by decide)
      · intro hc
        exact absurd hc hfin
  · rw [heq]
  · rw [heq]
  · rw [heq]
  · rw [heq]
  · rw [heq]
    simp
  · rw [heq]
    exact map_matches_set t.rounds _ _ _ hget rfl

/-- C10 witness: the theorem applied to the concrete in-progress tournament
`exOpenRound` (one started round, two rounds planned). -/
theorem record_results_empty_closes_round_witness :
    ∃ r, exOpenRound.rounds.get? (exOpenRound.current_round_index - 1) = some r ∧
      record_results exOpenRound [] 9 =
        ({ exOpenRound with
            rounds := exOpenRound.rounds.set (exOpenRound.current_round_index - 1)
              { r with end_time := some 9 }
            status := if exOpenRound.total_rounds ≤ exOpenRound.current_round_index
              then "terminé" else exOpenRound.status }, false) ∧
      ((record_results exOpenRound [] 9).1.status = "terminé" ↔
        exOpenRound.total_rounds ≤ exOpenRound.current_round_index) ∧
      (record_results exOpenRound [] 9).1.players = exOpenRound.players ∧
      (record_results exOpenRound [] 9).1.name = exOpenRound.name ∧
      (record_results exOpenRound [] 9).1.history = exOpenRound.history ∧
      (record_results exOpenRound [] 9).1.current_round_index =
        exOpenRound.current_round_index ∧
      (record_results exOpenRound [] 9).1.rounds.length = exOpenRound.rounds.length ∧
      (record_results exOpenRound [] 9).1.rounds.map (fun r => r.«matches») =
        exOpenRound.rounds.map (fun r => r.«matches») :=
  record_results_empty_closes_round exOpenRound 9 (by decide) (by decide) (by decide)

theorem pyIdx_lt (i : Int) (len : Nat) (j : Nat) (h : pyIdx i len = some j) :
    j < len := by
  unfold pyIdx at h
  by_cases h1 : 0 ≤ i ∧ i < (len : Int)
  · rw [if_pos h1] at h
    have := Option.some.inj h
    omega
  · rw [if_neg h1] at h
    by_cases h2 : -(len : Int) ≤ i ∧ i < 0
    · rw [if_pos h2] at h
      have := Option.some.inj h
      omega
    · rw [if_neg h2] at h
      exact Option.noConfusion h

theorem set_same {α : Type} : ∀ (l : List α) (i : Nat) (a : α),
    l.get? i = some a → l.set i a = l := by
  intro l
  induction l with
  | nil => intro i a h; simp at h
  | cons x xs ih =>
    intro i a h
    cases i with
    | zero =>
      simp only [List.get?_cons_zero, Option.some_inj] at h
      subst h
      rfl
    | succ j =>
      simp only [List.get?_cons_succ] at h
      simp [List.set, ih j a h]

theorem applyEntry_eq_none_iff (t : Tournoi) (e : Entry) :
    applyEntry t e = none ↔ entryValid t e = false := by
  unfold applyEntry entryValid resolveTarget
  cases hr : pyIdx e.r t.rounds.length with
  | none => simp
  | some ri =>
    cases hg : t.rounds.get? ri with
    | none =>
      rw [List.get?_eq_getElem?] at hg
      simp [hg]
    | some rnd =>
      rw [List.get?_eq_getElem?] at hg
      cases hm : pyIdx e.m rnd.«matches».length with
      | none => simp [hg, hm]
      | some mi =>
        have hmi : mi < rnd.«matches».length := pyIdx_lt _ _ _ hm
        have hgm : rnd.«matches».get? mi =
            some (rnd.«matches».get ⟨mi, hmi⟩) := List.get?_eq_get hmi
        rw [List.get?_eq_getElem?] at hgm
        simp [hg, hm, hgm]

theorem applyEntry_some_eq (t : Tournoi) (e : Entry) (ri : Nat) (rnd : RoundS)
    (mi : Nat) (mt : MatchS)
    (hr : pyIdx e.r t.rounds.length = some ri)
    (hg : t.rounds.get? ri = some rnd)
    (hm : pyIdx e.m rnd.«matches».length = some mi)
    (hgm : rnd.«matches».get? mi = some mt) :
    applyEntry t e = some { t with
      rounds := t.rounds.set ri
        { rnd with «matches» := rnd.«matches».set mi { mt with scores := (e.s1, e.s2) } }
      players := updatePoints (updatePoints t.players mt.p1.national_id e.s1)
        mt.p2.national_id e.s2 } := by
  unfold applyEntry
  rw [List.get?_eq_getElem?] at hg hgm
  simp [hr, hg, hm, hgm]

theorem applyEntry_some_inv (t : Tournoi) (e : Entry) (t2 : Tournoi)
    (h : applyEntry t e = some t2) :
    ∃ ri rnd mi mt, pyIdx e.r t.rounds.length = some ri ∧
      t.rounds.get? ri = some rnd ∧
      pyIdx e.m rnd.«matches».length = some mi ∧
      rnd.«matches».get? mi = some mt ∧
      t2 = { t with
        rounds := t.rounds.set ri
          { rnd with «matches» := rnd.«matches».set mi { mt with scores := (e.s1, e.s2) } }
        players := updatePoints (updatePoints t.players mt.p1.national_id e.s1)
          mt.p2.national_id e.s2 } := by
  cases hr : pyIdx e.r t.rounds.length with
  | none =>
    have hnone : applyEntry t e = none := by
      unfold applyEntry
      simp [hr]
    rw [hnone] at h
    exact Option.noConfusion h
  | some ri =>
    cases hg : t.rounds.get? ri with
    | none =>
      have hnone : applyEntry t e = none := by
        unfold applyEntry
        rw [List.get?_eq_getElem?] at hg
        simp [hr, hg]
      rw [hnone] at h
      exact Option.noConfusion h
    | some rnd =>
      cases hm : pyIdx e.m rnd.«matches».length with
      | none =>
        have hnone : applyEntry t e = none := by
          unfold applyEntry
          rw [List.get?_eq_getElem?] at hg
          simp [hr, hg, hm]
        rw [hnone] at h
        exact Option.noConfusion h
      | some mi =>
        have hmi : mi < rnd.«matches».length := pyIdx_lt _ _ _ hm
        have hgm : rnd.«matches».get? mi =
            some (rnd.«matches».get ⟨mi, hmi⟩) := List.get?_eq_get hmi
        have heq := applyEntry_some_eq t e ri rnd mi _ hr hg hm hgm
        have ht2 := Option.some.inj (h.symm.trans heq)
        exact ⟨ri, rnd, mi, _, rfl, hg, hm, hgm, ht2⟩

theorem applyEntry_frame (t : Tournoi) (e : Entry) (t2 : Tournoi)
    (h : applyEntry t e = some t2) :
    t2.status = t.status ∧ t2.current_round_index = t.current_round_index ∧
    t2.total_rounds = t.total_rounds ∧ t2.history = t.history ∧
    t2.name = t.name ∧
    t2.rounds.map (fun r => r.end_time) = t.rounds.map (fun r => r.end_time) ∧
    t2.rounds.map (fun r => r.«matches».length) =
      t.rounds.map (fun r => r.«matches».length) := by
  obtain ⟨ri, rnd, mi, mt, hr, hg, hm, hgm, ht2⟩ := applyEntry_some_inv t e t2 h
  subst ht2
  refine ⟨rfl, rfl, rfl, rfl, rfl, ?_, ?_⟩
  · rw [List.map_set]
    apply set_same
    rw [List.get?_map, hg]
    rfl
  · rw [List.map_set]
    apply set_same
    rw [List.get?_map, hg]
    simp only [Option.map_some']
    rw [List.length_set]

theorem applyEntry_recFrame (t : Tournoi) (e : Entry) (t2 : Tournoi)
    (h : applyEntry t e = some t2) : recFrame t2 t :=
  applyEntry_frame t e t2 h

theorem recFrame_refl (t : Tournoi) : recFrame t t :=
  ⟨rfl, rfl, rfl, rfl, rfl, rfl, rfl⟩

theorem recFrame_trans (t3 t2 t : Tournoi) (h1 : recFrame t3 t2) (h2 : recFrame t2 t) :
    recFrame t3 t := by
  obtain ⟨a1, b1, c1, d1, e1, f1, g1⟩ := h1
  obtain ⟨a2, b2, c2, d2, e2, f2, g2⟩ := h2
  exact ⟨a1.trans a2, b1.trans b2, c1.trans c2, d1.trans d2, e1.trans e2,
    f1.trans f2, g1.trans g2⟩

theorem resolveTarget_congr (t t2 : Tournoi) (e : Entry)
    (hlen : t2.rounds.map (fun r => r.«matches».length) =
      t.rounds.map (fun r => r.«matches».length)) :
    resolveTarget t2 e = resolveTarget t e := by
  have hrl : t2.rounds.length = t.rounds.length := by
    have h1 := congrArg List.length hlen
    simpa using h1
  unfold resolveTarget
  rw [hrl]
  cases hr : pyIdx e.r t.rounds.length with
  | none => rfl
  | some ri =>
    have hri : ri < t.rounds.length := pyIdx_lt _ _ _ hr
    have hri2 : ri < t2.rounds.length := by omega
    have hg : t.rounds.get? ri = some (t.rounds.get ⟨ri, hri⟩) := List.get?_eq_get hri
    have hg2 : t2.rounds.get? ri = some (t2.rounds.get ⟨ri, hri2⟩) := List.get?_eq_get hri2
    have hml : (t2.rounds.get ⟨ri, hri2⟩).«matches».length =
        (t.rounds.get ⟨ri, hri⟩).«matches».length := by
      have h1 := congrArg (fun l => l.get? ri) hlen
      simp only [List.get?_eq_getElem?, List.getElem?_map] at h1
      have hgE : t.rounds[ri]? = some (t.rounds.get ⟨ri, hri⟩) := by
        rw [← List.get?_eq_getElem?]
        exact hg
      have hg2E : t2.rounds[ri]? = some (t2.rounds.get ⟨ri, hri2⟩) := by
        rw [← List.get?_eq_getElem?]
        exact hg2
      rw [hgE, hg2E] at h1
      simp only [Option.map_some', Option.some_inj] at h1
      exact h1
    simp only [hg, hg2]
    rw [hml]

theorem entryValid_congr (t t2 : Tournoi) (e : Entry)
    (hlen : t2.rounds.map (fun r => r.«matches».length) =
      t.rounds.map (fun r => r.«matches».length)) :
    entryValid t2 e = entryValid t e := by
  unfold entryValid
  rw [resolveTarget_congr t t2 e hlen]

theorem entryValid_some (t : Tournoi) (e : Entry) (h : entryValid t e = true) :
    ∃ t2, applyEntry t e = some t2 := by
  cases ha : applyEntry t e with
  | none =>
    rw [applyEntry_eq_none_iff] at ha
    rw [h] at ha
    exact Bool.noConfusion ha
  | some t2 => exact ⟨t2, rfl⟩

theorem applyEntries_cons_valid (t : Tournoi) (e : Entry) (es : List Entry)
    (t2 : Tournoi) (h : applyEntry t e = some t2) :
    applyEntries t (e :: es) = applyEntries t2 es := by
  unfold applyEntries
  simp only [h]
  cases es with
  | nil => rfl
  | cons e2 es2 => rfl

theorem applyEntries_valid_frame (pre : List Entry) : ∀ (t : Tournoi),
    (∀ e ∈ pre, entryValid t e = true) →
    recFrame (applyEntries t pre).1 t ∧ (applyEntries t pre).2 = false := by
  induction pre with
  | nil => intro t _; exact ⟨recFrame_refl t, rfl⟩
  | cons e es ih =>
    intro t hv
    obtain ⟨t2, h2⟩ := entryValid_some t e (hv e (List.mem_cons_self e es))
    have hframe := applyEntry_recFrame t e t2 h2
    have hv2 : ∀ e2 ∈ es, entryValid t2 e2 = true := by
      intro e2 he2
      rw [entryValid_congr t t2 e2 hframe.2.2.2.2.2.2]
      exact hv e2 (List.mem_cons.mpr (Or.inr he2))
    obtain ⟨hf, hb⟩ := ih t2 hv2
    rw [applyEntries_cons_valid t e es t2 h2]
    exact ⟨recFrame_trans _ _ _ hf hframe, hb⟩

theorem applyEntries_stop_at_invalid (pre : List Entry) : ∀ (t : Tournoi)
    (bad : Entry) (rest : List Entry),
    (∀ e ∈ pre, entryValid t e = true) → entryValid t bad = false →
    applyEntries t (pre ++ bad :: rest) = ((applyEntries t pre).1, true) := by
  induction pre with
  | nil =>
    intro t bad rest _ hbad
    have hnone : applyEntry t bad = none := (applyEntry_eq_none_iff t bad).mpr hbad
    simp only [List.nil_append]
    unfold applyEntries
    rw [hnone]
  | cons e es ih =>
    intro t bad rest hv hbad
    obtain ⟨t2, h2⟩ := entryValid_some t e (hv e (List.mem_cons_self e es))
    have hframe := applyEntry_recFrame t e t2 h2
    have hv2 : ∀ e2 ∈ es, entryValid t2 e2 = true := by
      intro e2 he2
      rw [entryValid_congr t t2 e2 hframe.2.2.2.2.2.2]
      exact hv e2 (List.mem_cons.mpr (Or.inr he2))
    have hbad2 : entryValid t2 bad = false := by
      rw [entryValid_congr t t2 bad hframe.2.2.2.2.2.2]
      exact hbad
    rw [List.cons_append, applyEntries_cons_valid t e _ t2 h2,
      applyEntries_cons_valid t e es t2 h2]
    exact ih t2 bad rest hv2 hbad2

/-- C3 amended: when an entry list contains an out-of-range entry, the call
raises IndexError (error flag true), every entry strictly before the first
invalid one has been applied (the final state is exactly the fold of the
valid prefix), no later entry is applied, and the steps after the loop never
run: the status, current_round_index, total_rounds, pairing history, name,
every round's end_time and every round's match count are unchanged.
Atomicity therefore holds only when the first entry is already invalid. -/
theorem record_results_invalid_entry (t : Tournoi) (now : Nat) (pre : List Entry)
    (bad : Entry) (rest : List Entry)
    (hpre : ∀ e ∈ pre, entryValid t e = true)
    (hbad : entryValid t bad = false) :
    record_results t (pre ++ bad :: rest) now = ((applyEntries t pre).1, true) ∧
    recFrame (applyEntries t pre).1 t := by
  have hstop := applyEntries_stop_at_invalid pre t bad rest hpre hbad
  have hframe := (applyEntries_valid_frame pre t hpre).1
  constructor
  · unfold record_results
    rw [hstop]
  · exact hframe

/-- C3 witness: the amended theorem applied to the concrete in-progress
tournament `exOpenRound`, a valid first entry and an out-of-range second
entry. -/
theorem record_results_invalid_entry_witness :
    record_results exOpenRound ([Entry.mk 0 0 1 0] ++ Entry.mk 5 0 1 0 :: []) 9 =
      ((applyEntries exOpenRound [Entry.mk 0 0 1 0]).1, true) ∧
    recFrame (applyEntries exOpenRound [Entry.mk 0 0 1 0]).1 exOpenRound :=
  record_results_invalid_entry exOpenRound 9 [Entry.mk 0 0 1 0] (Entry.mk 5 0 1 0) []
    (by decide) (by decide)

/-- C3 counterexample: on `exOpenRound`, record_results with a valid first
entry and an out-of-range second entry raises (error flag true) yet has
already mutated state: Ann's points went from 0 to 1 — refuting the claim
that a call containing an invalid index mutates nothing. -/
theorem record_results_not_atomic :
    (record_results exOpenRound [Entry.mk 0 0 1 0, Entry.mk 5 0 1 0] 9).2 = true ∧
    (record_results exOpenRound [Entry.mk 0 0 1 0, Entry.mk 5 0 1 0] 9).1.players =
      [{ pAnn with points := 1 }, pBen] ∧
    [{ pAnn with points := 1 }, pBen] ≠ exOpenRound.players := by
  refine ⟨?_, ?_, by decide⟩
  · norm_num [record_results, applyEntries, applyEntry, pyIdx, updatePoints,
      exOpenRound, pAnn, pBen, mkMatch]
  · norm_num [record_results, applyEntries, applyEntry, pyIdx, updatePoints,
      exOpenRound, pAnn, pBen, mkMatch]
    all_goals decide

/-- C6 amended: on a Finished tournament (status "terminé", which in every
reachable finished state comes with current_round_index ≥ total_rounds),
start_next_round does fail (ValueError, rounds exhausted) and changes
nothing; record_results, however, performs no status check and does not
fail: with an empty entry list it succeeds, re-closes the round at
current_round_index - 1 (overwriting its end_time with a fresh timestamp)
and re-assigns status "terminé". -/
theorem finished_tournament_ops (sh : List PlayerS → List PlayerS) (now : Nat) :
    (∀ t : Tournoi, t.status = "terminé" → t.total_rounds ≤ t.current_round_index →
      start_next_round sh now t = (t, true)) ∧
    (∀ t : Tournoi, t.status = "terminé" → t.total_rounds ≤ t.current_round_index →
      1 ≤ t.current_round_index → t.current_round_index ≤ t.rounds.length →
      ∃ r, t.rounds.get? (t.current_round_index - 1) = some r ∧
        record_results t [] now =
          ({ t with
              rounds := t.rounds.set (t.current_round_index - 1)
                { r with end_time := some now }
              status := "terminé" }, false)) := by
  constructor
  · intro t _ hfin
    unfold start_next_round
    rw [if_pos hfin]
  · intro t hst hfin hcri1 hcri2
    have hlt : t.current_round_index - 1 < t.rounds.length := by omega
    have hget : t.rounds.get? (t.current_round_index - 1) =
        some (t.rounds.get ⟨t.current_round_index - 1, hlt⟩) := List.get?_eq_get hlt
    have hpy : pyIdx ((t.current_round_index : Int) - 1) t.rounds.length =
        some (t.current_round_index - 1) := by
      rw [pyIdx_nonneg _ _ (by omega) (by omega)]
      congr 1
      omega
    refine ⟨t.rounds.get ⟨t.current_round_index - 1, hlt⟩, hget, ?_⟩
    unfold record_results
    have h0 : applyEntries t [] = (t, false) := rfl
    rw [h0]
    simp only [hpy, hget]
    unfold RoundS.close
    rw [if_pos hfin]

/-- C6 amended witness: both parts applied to the concrete finished
tournament `exFinished`. -/
theorem finished_tournament_ops_witness :
    start_next_round (fun l => l) 7 exFinished = (exFinished, true) ∧
    (∃ r, exFinished.rounds.get? (exFinished.current_round_index - 1) = some r ∧
      record_results exFinished [] 7 =
        ({ exFinished with
            rounds := exFinished.rounds.set (exFinished.current_round_index - 1)
              { r with end_time := some 7 }
            status := "terminé" }, false)) :=
  ⟨(finished_tournament_ops (fun l => l) 7).1 exFinished (by decide) (by decide),
   (finished_tournament_ops (fun l => l) 7).2 exFinished (by decide) (by decide)
     (by decide) (by decide)⟩

/-- C6 counterexample: record_results on the Finished tournament
`exFinished` does not fail — it returns without error and mutates the
state (the closed round's end_time is overwritten from 2 to 7), refuting
the claim that a Finished tournament rejects recordResults with an error
and stays entirely unchanged. -/
theorem record_results_on_finished_succeeds :
    (record_results exFinished [] 7).2 = false ∧
    (record_results exFinished [] 7).1.rounds.map (fun r => r.end_time) = [some 7] ∧
    exFinished.rounds.map (fun r => r.end_time) = [some 2] := by
  refine ⟨?_, ?_, by decide⟩
  · norm_num [record_results, applyEntries, pyIdx, RoundS.close, exFinished,
      pAnn, pBen, mkMatch]
  · norm_num [record_results, applyEntries, pyIdx, RoundS.close, exFinished,
      pAnn, pBen, mkMatch]

/-- C5: for an in-progress tournament whose most recent round is still open
(end_time null), the controller-level start-next-round action stops at its
guard: it reports the distinct round-still-open condition (the code's
realization of InvalidStateError — a warning and an abort before any model
call) and returns the tournament completely unchanged; in particular no
second open round is appended and current_round_index, rounds, pairing
history and status are exactly as before. -/
theorem controller_start_round_open_guard (sh : List PlayerS → List PlayerS)
    (now : Nat) (t : Tournoi) (hst : t.status = "en cours")
    (hopen : lastRoundOpen t = true) :
    controller_start_next_round sh now t = (StartOutcome.roundOpen, t) := by
  unfold controller_start_next_round
  rw [if_pos hopen]

/-- C5 witness: the guard theorem applied to the concrete in-progress
tournament `exOpenRound`, whose only round is open. -/
theorem controller_start_round_open_guard_witness :
    controller_start_next_round (fun l => l) 7 exOpenRound =
      (StartOutcome.roundOpen, exOpenRound) :=
  controller_start_round_open_guard (fun l => l) 7 exOpenRound (by decide) (by decide)

theorem if_id_comm (x y : String) (c : ℚ) :
    (if x = y then c else 0) = (if y = x then c else 0) :=
  if_congr eq_comm rfl rfl

theorem matchContrib_zero (pid : String) (mt : MatchS) (h : mt.scores = (0, 0)) :
    matchContrib pid mt = 0 := by
  unfold matchContrib
  rw [h]
  simp

theorem contribSum_cons (pid : String) (m : MatchS) (ms : List MatchS) :
    contribSum pid (m :: ms) = matchContrib pid m + contribSum pid ms := rfl

theorem contribSum_append (pid : String) (ms1 ms2 : List MatchS) :
    contribSum pid (ms1 ++ ms2) = contribSum pid ms1 + contribSum pid ms2 := by
  induction ms1 with
  | nil => simp [contribSum]
  | cons m ms ih =>
    simp only [List.cons_append, contribSum_cons, ih]
    ring

theorem contribSum_zero (pid : String) (ms : List MatchS)
    (h : ∀ m ∈ ms, m.scores = (0, 0)) : contribSum pid ms = 0 := by
  induction ms with
  | nil => rfl
  | cons m rest ih =>
    rw [contribSum_cons, matchContrib_zero pid m (h m (List.mem_cons_self m rest)),
      ih (fun m2 hm2 => h m2 (List.mem_cons.mpr (Or.inr hm2)))]
    ring

theorem scoreSumFor_cons (pid : String) (r : RoundS) (rs : List RoundS) :
    scoreSumFor pid (r :: rs) =
      contribSum pid r.«matches» + scoreSumFor pid rs := by
  unfold scoreSumFor
  simp only [List.map_cons, List.flatten_cons]
  exact contribSum_append pid _ _

theorem scoreSumFor_append (pid : String) (rs1 rs2 : List RoundS) :
    scoreSumFor pid (rs1 ++ rs2) = scoreSumFor pid rs1 + scoreSumFor pid rs2 := by
  induction rs1 with
  | nil => simp [scoreSumFor, contribSum]
  | cons r rs ih =>
    simp only [List.cons_append, scoreSumFor_cons, ih]
    ring

theorem scoreSumFor_congr (pid : String) (rs1 rs2 : List RoundS)
    (h : rs1.map (fun r => r.«matches») = rs2.map (fun r => r.«matches»)) :
    scoreSumFor pid rs1 = scoreSumFor pid rs2 := by
  unfold scoreSumFor
  rw [h]

theorem updatePoints_updatePoints (ps : List PlayerS) (a : String) (d1 : ℚ)
    (b : String) (d2 : ℚ) :
    updatePoints (updatePoints ps a d1) b d2 =
      ps.map (fun p => { p with points := p.points +
        ((if p.national_id = a then d1 else 0) +
          (if p.national_id = b then d2 else 0)) }) := by
  unfold updatePoints
  rw [List.map_map]
  apply List.map_congr_left
  intro p _
  simp only [Function.comp]
  by_cases h1 : p.national_id = a
  · by_cases h2 : p.national_id = b
    · simp only [if_pos h1, if_pos h2]
      congr 1
      ring
    · simp only [if_pos h1, if_neg h2]
      congr 1
      ring
  · by_cases h2 : p.national_id = b
    · simp only [if_neg h1, if_pos h2]
      congr 1
      ring
    · simp only [if_neg h1, if_neg h2]
      congr 1
      ring

theorem foldl_matches_points (ms : List MatchS) : ∀ (ps : List PlayerS),
    ms.foldl (fun ps2 m => updatePoints (updatePoints ps2 m.p1.national_id m.scores.1)
      m.p2.national_id m.scores.2) ps =
      ps.map (fun p => { p with points := p.points + contribSum p.national_id ms }) := by
  induction ms with
  | nil =>
    intro ps
    simp only [List.foldl_nil, contribSum]
    have h1 : ∀ p : PlayerS,
        ({ p with points := p.points + List.foldr (fun m acc => matchContrib p.national_id m + acc) 0 [] } : PlayerS) = p := by
      intro p
      simp
    rw [List.map_congr_left (fun p _ => h1 p)]
    simp
  | cons m rest ih =>
    intro ps
    rw [List.foldl_cons, ih, updatePoints_updatePoints, List.map_map]
    apply List.map_congr_left
    intro p _
    simp only [Function.comp, contribSum_cons]
    congr 1
    unfold matchContrib
    rw [if_id_comm m.p1.national_id p.national_id, if_id_comm m.p2.national_id p.national_id]
    ring

theorem foldl_rounds_points (rounds : List RoundS) : ∀ (ps : List PlayerS),
    rounds.foldl (fun ps2 rnd => rnd.«matches».foldl
      (fun ps3 m => updatePoints (updatePoints ps3 m.p1.national_id m.scores.1)
        m.p2.national_id m.scores.2) ps2) ps =
      ps.map (fun p => { p with points := p.points + scoreSumFor p.national_id rounds }) := by
  induction rounds with
  | nil =>
    intro ps
    simp only [List.foldl_nil]
    have h1 : ∀ p : PlayerS,
        ({ p with points := p.points + scoreSumFor p.national_id [] } : PlayerS) = p := by
      intro p
      simp [scoreSumFor, contribSum]
    rw [List.map_congr_left (fun p _ => h1 p)]
    simp
  | cons r rs ih =>
    intro ps
    rw [List.foldl_cons, foldl_matches_points, ih, List.map_map]
    apply List.map_congr_left
    intro p _
    simp only [Function.comp, scoreSumFor_cons]
    congr 1
    ring

theorem recalculate_points_players (t : Tournoi) :
    (recalculate_points t).players =
      t.players.map (fun p => { p with points := scoreSumFor p.national_id t.rounds }) := by
  unfold recalculate_points
  simp only []
  rw [foldl_rounds_points, List.map_map]
  apply List.map_congr_left
  intro p _
  simp only [Function.comp]
  congr 1
  ring

theorem contribSum_set (pid : String) : ∀ (ms : List MatchS) (mi : Nat)
    (mt mt2 : MatchS), ms.get? mi = some mt →
    contribSum pid (ms.set mi mt2) =
      contribSum pid ms - matchContrib pid mt + matchContrib pid mt2 := by
  intro ms
  induction ms with
  | nil => intro mi mt mt2 h; simp at h
  | cons m rest ih =>
    intro mi mt mt2 h
    cases mi with
    | zero =>
      simp only [List.get?_cons_zero, Option.some_inj] at h
      subst h
      simp only [List.set_cons_zero, contribSum_cons]
      ring
    | succ j =>
      simp only [List.get?_cons_succ] at h
      simp only [List.set_cons_succ, contribSum_cons, ih j mt mt2 h]
      ring

theorem scoreSumFor_set (pid : String) : ∀ (rounds : List RoundS) (ri : Nat)
    (rnd : RoundS) (mi : Nat) (mt mt2 : MatchS),
    rounds.get? ri = some rnd → rnd.«matches».get? mi = some mt →
    scoreSumFor pid (rounds.set ri
        { rnd with «matches» := rnd.«matches».set mi mt2 }) =
      scoreSumFor pid rounds - matchContrib pid mt + matchContrib pid mt2 := by
  intro rounds
  induction rounds with
  | nil => intro ri rnd mi mt mt2 h; simp at h
  | cons r rs ih =>
    intro ri rnd mi mt mt2 hg hgm
    cases ri with
    | zero =>
      simp only [List.get?_cons_zero, Option.some_inj] at hg
      subst hg
      simp only [List.set_cons_zero, scoreSumFor_cons]
      rw [contribSum_set pid _ mi mt mt2 hgm]
      ring
    | succ j =>
      simp only [List.get?_cons_succ] at hg
      simp only [List.set_cons_succ, scoreSumFor_cons, ih j rnd mi mt mt2 hg hgm]
      ring

theorem map_eq_self_forall {α : Type} (f : α → α) : ∀ (l : List α),
    l.map f = l ↔ ∀ x ∈ l, f x = x := by
  intro l
  induction l with
  | nil => simp
  | cons a as ih =>
    simp only [List.map_cons, List.cons.injEq, List.mem_cons]
    constructor
    · rintro ⟨h1, h2⟩ x hx
      rcases hx with rfl | hx
      · exact h1
      · exact (ih.mp h2) x hx
    · intro h
      exact ⟨h a (Or.inl rfl), ih.mpr (fun x hx => h x (Or.inr hx))⟩

theorem pointsConsistent_iff_recalc (t : Tournoi) :
    pointsConsistent t ↔ (recalculate_points t).players = t.players := by
  rw [recalculate_points_players, map_eq_self_forall]
  unfold pointsConsistent
  constructor
  · intro h x hx
    rw [← h x hx]
  · intro h p hp
    have h1 := h p hp
    have h2 := congrArg PlayerS.points h1
    simpa using h2.symm

theorem pair_players_some_inv (sh : List PlayerS → List PlayerS) (t : Tournoi)
    (trip : List (PlayerS × PlayerS) × List (String × String) × List PlayerS)
    (hp : pair_players sh t = some trip) :
    t.players.length % 2 = 0 ∧
    trip.2.2 = prepare_players_order sh t.current_round_index t.players ∧
    build_pairs t.history trip.2.2 = some (trip.1, trip.2.1) := by
  unfold pair_players at hp
  by_cases he : t.players.length % 2 ≠ 0
  · rw [if_pos he] at hp
    exact Option.noConfusion hp
  · rw [if_neg he] at hp
    cases hb : build_pairs t.history
        (prepare_players_order sh t.current_round_index t.players) with
    | none =>
      simp only [hb] at hp
      exact Option.noConfusion hp
    | some pr =>
      obtain ⟨pairs, hh⟩ := pr
      simp only [hb, Option.some_inj] at hp
      have htrip := hp.symm
      subst htrip
      exact ⟨by omega, rfl, hb⟩

theorem start_next_round_some_inv (sh : List PlayerS → List PlayerS) (now : Nat)
    (t t2 : Tournoi) (h : start_next_round sh now t = (t2, false)) :
    ∃ pairs hh,
      pair_players sh t =
        some (pairs, hh, prepare_players_order sh t.current_round_index t.players) ∧
      t2 = { t with
        players := prepare_players_order sh t.current_round_index t.players
        history := hh
        rounds := t.rounds ++
          [{ name := "Round " ++ toString (t.current_round_index + 1)
             «matches» := pairs.map (fun pr => MatchS.mk pr.1 pr.2 (0, 0))
             start_time := some now
             end_time := none }]
        current_round_index := t.current_round_index + 1
        status := "en cours" } := by
  unfold start_next_round at h
  by_cases hfin : t.total_rounds ≤ t.current_round_index
  · rw [if_pos hfin] at h
    simp only [Prod.mk.injEq] at h
    exact absurd h.2 (by decide)
  · rw [if_neg hfin] at h
    cases hp : pair_players sh t with
    | none =>
      simp only [hp, Prod.mk.injEq] at h
      exact absurd h.2 (by decide)
    | some trip =>
      obtain ⟨pairs, hh, ordered⟩ := trip
      obtain ⟨-, hord, -⟩ := pair_players_some_inv sh t _ hp
      simp only at hord
      subst hord
      simp only [hp, Prod.mk.injEq] at h
      exact ⟨pairs, hh, rfl, h.1.symm⟩

theorem start_preserves_consistency (sh : List PlayerS → List PlayerS)
    (hsh : ∀ l, (sh l).Perm l) (now : Nat) (t t2 : Tournoi)
    (h : start_next_round sh now t = (t2, false)) (hc : pointsConsistent t) :
    pointsConsistent t2 := by
  obtain ⟨pairs, hh, hp, ht2⟩ := start_next_round_some_inv sh now t t2 h
  subst ht2
  intro p hmem2
  have hperm := prepare_players_order_perm sh hsh t.current_round_index t.players
  have hmem : p ∈ t.players := hperm.subset hmem2
  have hpts := hc p hmem
  simp only []
  rw [scoreSumFor_append, scoreSumFor_cons]
  have hzero : contribSum p.national_id
      (pairs.map (fun pr => MatchS.mk pr.1 pr.2 (0, 0))) = 0 := by
    apply contribSum_zero
    intro m hm
    obtain ⟨pr, -, hpr⟩ := List.mem_map.mp hm
    rw [← hpr]
  have hnil : scoreSumFor p.national_id [] = 0 := by
    simp [scoreSumFor, contribSum]
  rw [hzero, hnil, hpts]
  ring

theorem get?_set_ne {α : Type} (l : List α) (i j : Nat) (a : α) (h : i ≠ j) :
    (l.set i a).get? j = l.get? j := by
  rw [List.get?_eq_getElem?, List.get?_eq_getElem?]
  exact List.getElem?_set_ne h

theorem get?_set_self {α : Type} (l : List α) (i : Nat) (a : α) (h : i < l.length) :
    (l.set i a).get? i = some a := by
  rw [List.get?_eq_getElem?]
  exact List.getElem?_set_self h

theorem resolveTarget_of (t : Tournoi) (e : Entry) (ri : Nat) (rnd : RoundS) (mi : Nat)
    (hr : pyIdx e.r t.rounds.length = some ri)
    (hg : t.rounds.get? ri = some rnd)
    (hm : pyIdx e.m rnd.«matches».length = some mi) :
    resolveTarget t e = some (ri, mi) := by
  unfold resolveTarget
  simp only [hr, hg, hm]

theorem targetMatch_of (t : Tournoi) (e : Entry) (ri : Nat) (rnd : RoundS) (mi : Nat)
    (mt : MatchS) (hr : pyIdx e.r t.rounds.length = some ri)
    (hg : t.rounds.get? ri = some rnd)
    (hm : pyIdx e.m rnd.«matches».length = some mi)
    (hgm : rnd.«matches».get? mi = some mt) :
    targetMatch t e = some mt := by
  unfold targetMatch
  rw [resolveTarget_of t e ri rnd mi hr hg hm]
  simp only [hg, hgm]

theorem record_results_some_inv (t : Tournoi) (entries : List Entry) (now : Nat)
    (t2 : Tournoi) (h : record_results t entries now = (t2, false)) :
    ∃ s ci rnd, applyEntries t entries = (s, false) ∧
      pyIdx ((s.current_round_index : Int) - 1) s.rounds.length = some ci ∧
      s.rounds.get? ci = some rnd ∧
      t2 = { s with
        rounds := s.rounds.set ci (rnd.close now)
        status := if s.total_rounds ≤ s.current_round_index then "terminé"
          else s.status } := by
  unfold record_results at h
  cases ha : applyEntries t entries with
  | mk s flag =>
    rw [ha] at h
    cases flag with
    | true =>
      simp only [Prod.mk.injEq] at h
      exact absurd h.2 (by decide)
    | false =>
      cases hpy : pyIdx ((s.current_round_index : Int) - 1) s.rounds.length with
      | none =>
        simp only [hpy, Prod.mk.injEq] at h
        exact absurd h.2 (by decide)
      | some ci =>
        simp only [hpy] at h
        cases hg : s.rounds.get? ci with
        | none =>
          simp only [hg, Prod.mk.injEq] at h
          exact absurd h.2 (by decide)
        | some rnd =>
          simp only [hg] at h
          refine ⟨s, ci, rnd, rfl, hpy, hg, ?_⟩
          by_cases hfin : s.total_rounds ≤ s.current_round_index
          · rw [if_pos hfin] at h ⊢
            simp only [Prod.mk.injEq] at h
            exact h.1.symm
          · rw [if_neg hfin] at h ⊢
            simp only [Prod.mk.injEq] at h
            exact h.1.symm

theorem resolveTarget_some_inv (t : Tournoi) (e : Entry) (ri mi : Nat)
    (h : resolveTarget t e = some (ri, mi)) :
    ∃ rnd, pyIdx e.r t.rounds.length = some ri ∧ t.rounds.get? ri = some rnd ∧
      pyIdx e.m rnd.«matches».length = some mi := by
  unfold resolveTarget at h
  cases hr : pyIdx e.r t.rounds.length with
  | none =>
    rw [hr] at h
    exact Option.noConfusion h
  | some ri0 =>
    rw [hr] at h
    cases hg : t.rounds.get? ri0 with
    | none =>
      simp only [hg] at h
      exact Option.noConfusion h
    | some rnd =>
      simp only [hg] at h
      cases hm : pyIdx e.m rnd.«matches».length with
      | none =>
        simp only [hm] at h
        exact Option.noConfusion h
      | some mi0 =>
        simp only [hm, Option.some_inj, Prod.mk.injEq] at h
        obtain ⟨rfl, rfl⟩ := h
        exact ⟨rnd, rfl, hg, hm⟩

theorem targetMatch_some_inv (t : Tournoi) (e : Entry) (m2 : MatchS)
    (h : targetMatch t e = some m2) :
    ∃ ri mi rnd, resolveTarget t e = some (ri, mi) ∧ t.rounds.get? ri = some rnd ∧
      rnd.«matches».get? mi = some m2 := by
  unfold targetMatch at h
  cases hrt : resolveTarget t e with
  | none =>
    rw [hrt] at h
    exact Option.noConfusion h
  | some pr =>
    obtain ⟨ri, mi⟩ := pr
    rw [hrt] at h
    cases hg : t.rounds.get? ri with
    | none =>
      simp only [hg] at h
      exact Option.noConfusion h
    | some rnd =>
      simp only [hg] at h
      exact ⟨ri, mi, rnd, rfl, hg, h⟩

theorem applyEntry_fresh_consistent (t : Tournoi) (e : Entry) (t2 : Tournoi)
    (h : applyEntry t e = some t2) (mt : MatchS) (htm : targetMatch t e = some mt)
    (hzero : mt.scores = (0, 0)) (hc : pointsConsistent t) : pointsConsistent t2 := by
  obtain ⟨ri, rnd, mi, mt', hr, hg, hm, hgm, ht2⟩ := applyEntry_some_inv t e t2 h
  have htm' := targetMatch_of t e ri rnd mi mt' hr hg hm hgm
  have hmt : mt' = mt := Option.some.inj (htm'.symm.trans htm)
  subst hmt
  subst ht2
  intro p2 hp2
  simp only [updatePoints_updatePoints] at hp2
  obtain ⟨p, hp, hF⟩ := List.mem_map.mp hp2
  have hpts := hc p hp
  subst hF
  simp only []
  rw [scoreSumFor_set p.national_id t.rounds ri rnd mi mt' _ hg hgm,
    matchContrib_zero _ mt' hzero, hpts]
  unfold matchContrib
  simp only []
  rw [if_id_comm mt'.p1.national_id p.national_id,
    if_id_comm mt'.p2.national_id p.national_id]
  ring

theorem entriesFresh_tail (t : Tournoi) (e : Entry) (es : List Entry) (t2 : Tournoi)
    (h : applyEntry t e = some t2) (hf : entriesFresh t (e :: es)) :
    entriesFresh t2 es := by
  obtain ⟨hpw, hall⟩ := hf
  rw [List.pairwise_cons] at hpw
  obtain ⟨ri, rnd, mi, mt', hr, hg, hm, hgm, ht2⟩ := applyEntry_some_inv t e t2 h
  have hrt_e : resolveTarget t e = some (ri, mi) := resolveTarget_of t e ri rnd mi hr hg hm
  have hshape := (applyEntry_frame t e t2 h).2.2.2.2.2.2
  have hcongr : ∀ x : Entry, resolveTarget t2 x = resolveTarget t x :=
    fun x => resolveTarget_congr t t2 x hshape
  constructor
  · apply List.Pairwise.imp_of_mem ?_ hpw.2
    intro a b _ _ hab
    rw [hcongr a, hcongr b]
    exact hab
  · intro e2 he2
    obtain ⟨m2, htm2, hz2⟩ := hall e2 (List.mem_cons.mpr (Or.inr he2))
    obtain ⟨ri2, mi2, rnd2, hrt2, hg2, hgm2⟩ := targetMatch_some_inv t e2 m2 htm2
    have hne : (ri, mi) ≠ (ri2, mi2) := by
      intro hcontra
      apply hpw.1 e2 he2
      rw [hrt_e, hrt2, hcontra]
    refine ⟨m2, ?_, hz2⟩
    unfold targetMatch
    rw [hcongr e2, hrt2]
    have hri : ri < t.rounds.length := by
      obtain ⟨hk, -⟩ := List.get?_eq_some.mp hg
      exact hk
    by_cases hrieq : ri2 = ri
    · subst hrieq
      have hrnd2 : rnd2 = rnd := Option.some.inj (hg2.symm.trans hg)
      subst hrnd2
      have hmine : mi ≠ mi2 := by
        intro hcontra
        exact hne (by rw [hcontra])
      subst ht2
      simp only []
      rw [get?_set_self t.rounds ri2 _ hri]
      simp only []
      rw [get?_set_ne _ _ _ _ hmine, hgm2]
    · subst ht2
      simp only []
      rw [get?_set_ne _ _ _ _ (fun hc2 => hrieq hc2.symm)]
      simp only [hg2, hgm2]

theorem applyEntries_fresh_consistent (entries : List Entry) : ∀ (t s : Tournoi),
    entriesFresh t entries → applyEntries t entries = (s, false) →
    pointsConsistent t → pointsConsistent s := by
  induction entries with
  | nil =>
    intro t s _ ha hc
    unfold applyEntries at ha
    simp only [Prod.mk.injEq] at ha
    rw [← ha.1]
    exact hc
  | cons e es ih =>
    intro t s hf ha hc
    obtain ⟨m, htm, hz⟩ := hf.2 e (List.mem_cons_self e es)
    obtain ⟨ri0, mi0, rnd0, hrt, -, -⟩ := targetMatch_some_inv t e m htm
    have hvalid : entryValid t e = true := by
      unfold entryValid
      rw [hrt]
      rfl
    obtain ⟨t2, h2⟩ := entryValid_some t e hvalid
    rw [applyEntries_cons_valid t e es t2 h2] at ha
    exact ih t2 s (entriesFresh_tail t e es t2 h2 hf) ha
      (applyEntry_fresh_consistent t e t2 h2 m htm hz hc)

theorem record_preserves_consistency (t : Tournoi) (entries : List Entry)
    (now : Nat) (t2 : Tournoi) (hf : entriesFresh t entries)
    (h : record_results t entries now = (t2, false)) (hc : pointsConsistent t) :
    pointsConsistent t2 := by
  obtain ⟨s, ci, rnd, ha, hpy, hg, ht2⟩ := record_results_some_inv t entries now t2 h
  have hcs : pointsConsistent s := applyEntries_fresh_consistent entries t s hf ha hc
  subst ht2
  intro p hp
  have hmap : (s.rounds.set ci (rnd.close now)).map (fun r => r.«matches») =
      s.rounds.map (fun r => r.«matches») :=
    map_matches_set s.rounds ci rnd (rnd.close now) hg rfl
  simp only []
  rw [scoreSumFor_congr p.national_id _ _ hmap]
  exact hcs p hp

/-- C4 amended: (a) replaying the stored match scores from zero — what
recalculate_points does on reload — reproduces exactly the current points
precisely when each player's points equal the sum of the scores currently
stored for their matches (pointsConsistent); (b) starting a round preserves
that property (the new matches carry 0-0 scores); (c) record_results
preserves it provided its entries are fresh: they target pairwise-distinct
matches whose stored scores are still the initial (0, 0) — i.e. every match
is recorded at most once, which is what the score-entry flow guarantees.
Hence after any such sequence of calls, recomputing from history is
idempotent; without the at-most-once condition it is not (see the
counterexample). -/
theorem points_replay_consistency :
    (∀ t : Tournoi, pointsConsistent t ↔ (recalculate_points t).players = t.players) ∧
    (∀ (sh : List PlayerS → List PlayerS) (now : Nat) (t t2 : Tournoi),
      (∀ l, (sh l).Perm l) → start_next_round sh now t = (t2, false) →
      pointsConsistent t → pointsConsistent t2) ∧
    (∀ (t : Tournoi) (entries : List Entry) (now : Nat) (t2 : Tournoi),
      entriesFresh t entries → record_results t entries now = (t2, false) →
      pointsConsistent t → pointsConsistent t2) :=
  ⟨pointsConsistent_iff_recalc,
   fun sh now t t2 hsh h hc => start_preserves_consistency sh hsh now t t2 h hc,
   fun t entries now t2 hf h hc => record_preserves_consistency t entries now t2 hf h hc⟩

/-- C4 amended witness: part (a) instantiated at `exFresh`, part (b) applied
to the concrete first-round start from `exFresh`, part (c) applied to the
concrete fresh recording on `exOpenRound`. -/
theorem points_replay_consistency_witness :
    (pointsConsistent exFresh ↔ (recalculate_points exFresh).players = exFresh.players) ∧
    pointsConsistent exStarted ∧ pointsConsistent exRecorded := by
  have hstart : start_next_round (fun l => l) 1 exFresh = (exStarted, false) := by
    unfold start_next_round pair_players prepare_players_order
    have hb : build_pairs [] [pAnn, pBen] =
        some ([(pAnn, pBen)], [("AB00001", "AB00002")]) := by
      rw [build_pairs]
      norm_num [find_partner_index, find_compatible_index, duoPlayed, pAnn, pBen]
      rw [build_pairs]
    have hname : "Round " ++ toString 1 = "Round 1" := by decide
    norm_num [exFresh, exStarted, mkMatch, hb, hname]
  have hrec : record_results exOpenRound [Entry.mk 0 0 1 0] 9 = (exRecorded, false) := by
    norm_num [record_results, applyEntries, applyEntry, pyIdx, updatePoints,
      RoundS.close, exOpenRound, exRecorded, pAnn, pBen, mkMatch]
    all_goals decide
  have hconsFresh : pointsConsistent exFresh := by
    intro p hp
    fin_cases hp <;> norm_num [scoreSumFor, contribSum, exFresh, pAnn, pBen]
  have hconsOpen : pointsConsistent exOpenRound := by
    intro p hp
    fin_cases hp <;>
      norm_num [scoreSumFor, contribSum, matchContrib, exOpenRound, pAnn, pBen, mkMatch]
  have hfresh : entriesFresh exOpenRound [Entry.mk 0 0 1 0] := by
    constructor
    · simp
    · intro e he
      simp only [List.mem_singleton] at he
      subst he
      refine ⟨mkMatch pAnn pBen 0 0, by decide, rfl⟩
  refine ⟨points_replay_consistency.1 exFresh, ?_, ?_⟩
  · exact points_replay_consistency.2.1 (fun l => l) 1 exFresh exStarted
      (fun l => List.Perm.refl l) hstart hconsFresh
  · exact points_replay_consistency.2.2 exOpenRound [Entry.mk 0 0 1 0] 9 exRecorded
      hfresh hrec hconsOpen

/-- C4 counterexample: recording the same match twice (two record_results
calls, both succeeding) makes the stored-score replay diverge from the
accumulated points — Ann holds 2 points but the stored scores replay to 1 —
refuting the claim that recomputation from history always reproduces the
points after any sequence of record_results calls. -/
theorem record_twice_breaks_replay :
    (record_results exOpenRound [Entry.mk 0 0 1 0] 5).2 = false ∧
    (record_results (record_results exOpenRound [Entry.mk 0 0 1 0] 5).1
      [Entry.mk 0 0 1 0] 6).2 = false ∧
    (recalculate_points (record_results (record_results exOpenRound
        [Entry.mk 0 0 1 0] 5).1 [Entry.mk 0 0 1 0] 6).1).players ≠
      (record_results (record_results exOpenRound [Entry.mk 0 0 1 0] 5).1
        [Entry.mk 0 0 1 0] 6).1.players := by
  refine ⟨?_, ?_, ?_⟩ <;>
    norm_num [record_results, applyEntries, applyEntry, pyIdx, updatePoints,
      RoundS.close, recalculate_points, scoreSumFor, contribSum, matchContrib,
      exOpenRound, pAnn, pBen, mkMatch]
